import Mathlib

/-!
Shallow embedding of `src/push-relabel.cpp` (FIFO push-relabel maximum flow).

The C++ class `PushRelabel` keeps, for `n` vertices:
  * `adj`    : per-vertex list of `Edge {to, rev, flow, cap}` records,
  * `excess` : per-vertex excess (`long long`, modelled as `Int`),
  * `dist`   : per-vertex height / distance label (`int`, always nonnegative,
               modelled as `Nat`),
  * `count`  : the height histogram (`vector<int>` of size `2*n`; modelled as a
               total function `Nat → Int`, with `countBuckets` recording the
               allocated size),
  * `active` : per-vertex queued flag,
  * `Q`      : FIFO queue of vertices.

Vertex-indexed vectors are modelled as total functions updated pointwise;
arc lists are Lean lists.  All operations are translated statement by
statement from the source.
-/

namespace PushRelabel

structure Edge where
  «to» : Nat
  rev : Nat
  flow : Int
  cap : Int
  deriving Repr, DecidableEq, Inhabited

structure PRState where
  n : Nat
  adj : Nat → List Edge
  excess : Nat → Int
  dist : Nat → Nat
  count : Nat → Int
  active : Nat → Bool
  Q : List Nat

/-- Pointwise update of a vertex-indexed function. -/
def fupd {α : Type} (f : Nat → α) (i : Nat) (x : α) : Nat → α :=
  fun j => if j = i then x else f j

/-- Number of histogram buckets allocated by the constructor:
`count.resize(2 * n)` in `PushRelabel::PushRelabel`. -/
def countBuckets (n : Nat) : Nat := 2 * n

/-- Constructor `PushRelabel::PushRelabel(int nodes)`: all vectors zero-initialised. -/
def mkPushRelabel (nodes : Nat) : PRState :=
  { n := nodes
    adj := fun _ => []
    excess := fun _ => 0
    dist := fun _ => 0
    count := fun _ => 0
    active := fun _ => false
    Q := [] }

/-- Helper `PushRelabel::add_edge_internal`: appends the forward arc to `adj[u]` and a
zero-capacity backward arc to `adj[v]`, each recording the other's index.
Only called with `u ≠ v` (`addEdge` filters self-loops). -/
def add_edge_internal (g : PRState) (u v : Nat) (cap : Int) : PRState :=
  let lu := g.adj u
  let lv := g.adj v
  let adj1 := fupd g.adj u (lu ++ [⟨v, lv.length, 0, cap⟩])
  let adj2 := fupd adj1 v (adj1 v ++ [⟨u, lu.length, 0, 0⟩])
  { g with adj := adj2 }

/-- Method `PushRelabel::addEdge`: ignores self-loops. -/
def addEdge (g : PRState) (u v : Nat) (cap : Int) : PRState :=
  if u = v then g else add_edge_internal g u v cap

/-- Build a graph from an edge list of `(u, v, cap)` triples. -/
def buildGraph (nodes : Nat) (es : List (Nat × Nat × Int)) : PRState :=
  es.foldl (fun g e => addEdge g e.1 e.2.1 e.2.2) (mkPushRelabel nodes)

/-- Method `PushRelabel::enqueue`: pushes `v` on the FIFO queue when it is inactive
with positive excess. -/
def enqueue (g : PRState) (v : Nat) : PRState :=
  if g.active v = false ∧ 0 < g.excess v then
    { g with active := fupd g.active v true, Q := g.Q ++ [v] }
  else g

/-- Method `PushRelabel::push(u, e)` where `e` is the arc of index `i` in `adj[u]`:
`amt = min(excess[u], e.cap - e.flow)`; no-op when `dist[u] ≤ dist[e.«to»]` or
`amt = 0`; otherwise moves `amt` units of flow and excess and enqueues the
destination. -/
def pushOp (g : PRState) (u i : Nat) : PRState :=
  let e := (g.adj u).getD i default
  let amt := min (g.excess u) (e.cap - e.flow)
  if g.dist u ≤ g.dist e.«to» ∨ amt = 0 then g
  else
    let adj1 := fupd g.adj u ((g.adj u).set i { e with flow := e.flow + amt })
    let e2 := (adj1 e.«to»).getD e.rev default
    let adj2 := fupd adj1 e.«to» ((adj1 e.«to»).set e.rev { e2 with flow := e2.flow - amt })
    let ex1 := fupd g.excess u (g.excess u - amt)
    let ex2 := fupd ex1 e.«to» (ex1 e.«to» + amt)
    enqueue { g with adj := adj2, excess := ex2 } e.«to»

/-- Method `PushRelabel::gap(k)`: for every vertex at height at least `k`, move it to
`max(height, n+1)`, updating the histogram, and re-enqueue it. -/
def gapOp (g : PRState) (k : Nat) : PRState :=
  (List.range g.n).foldl
    (fun g v =>
      if g.dist v < k then g
      else
        let g1 := { g with count := fupd g.count (g.dist v) (g.count (g.dist v) - 1) }
        let d2 := max (g1.dist v) (g1.n + 1)
        let g2 := { g1 with dist := fupd g1.dist v d2 }
        let g3 := { g2 with count := fupd g2.count d2 (g2.count d2 + 1) }
        enqueue g3 v)
    g

/-- Method `PushRelabel::relabel(u)`: decrement the histogram at the old height, set
`dist[u]` to `2n` lowered to `1 + dist[e.«to»]` over all residual outgoing arcs,
increment the histogram at the new height, re-enqueue `u`.
(`e.«to» ≠ u` for every stored arc, since `addEdge` rejects self-loops, so
reading the old `dist` throughout the minimisation matches the source.) -/
def relabelOp (g : PRState) (u : Nat) : PRState :=
  let g1 := { g with count := fupd g.count (g.dist u) (g.count (g.dist u) - 1) }
  let d2 := (g1.adj u).foldl
    (fun d e => if 0 < e.cap - e.flow then min d (g1.dist e.«to» + 1) else d)
    (2 * g1.n)
  let g2 := { g1 with dist := fupd g1.dist u d2 }
  let g3 := { g2 with count := fupd g2.count d2 (g2.count d2 + 1) }
  enqueue g3 u

/-- The arc scan of `PushRelabel::discharge(u)`: the `for` loop over `adj[u]`
pushing while `excess[u] > 0`.  (The C++ `break` is equivalent to skipping the
remaining arcs, since the excess of `u` never increases during its own scan.) -/
def dischargeScan (g : PRState) (u : Nat) : PRState :=
  (List.range (g.adj u).length).foldl
    (fun g i => if 0 < g.excess u then pushOp g u i else g)
    g

/-- Method `PushRelabel::discharge(u)`: scan all arcs from index zero, then, if excess
remains, apply the gap heuristic when `count[dist[u]] == 1` and relabel
otherwise. -/
def discharge (g : PRState) (u : Nat) : PRState :=
  let g1 := dischargeScan g u
  if 0 < g1.excess u then
    if g1.count (g1.dist u) = 1 then gapOp g1 (g1.dist u)
    else relabelOp g1 u
  else g1

/-- The assignments at the top of `PushRelabel::getMaxFlow`:
`count[0] = n - 1; count[n] = 1; dist[s] = n; active[s] = active[t] = true;`. -/
def initState (g : PRState) (s t : Nat) : PRState :=
  let g1 := { g with count := fupd g.count 0 ((g.n : Int) - 1) }
  let g2 := { g1 with count := fupd g1.count g1.n 1 }
  let g3 := { g2 with dist := fupd g2.dist s g2.n }
  { g3 with active := fupd (fupd g3.active s true) t true }

/-- The preflow loop of `getMaxFlow`:
`for e in adj[s] { excess[s] += e.cap; push(s, e); }`. -/
def initPushes (g : PRState) (s : Nat) : PRState :=
  (List.range (g.adj s).length).foldl
    (fun g i =>
      let e := (g.adj s).getD i default
      pushOp { g with excess := fupd g.excess s (g.excess s + e.cap) } s i)
    g

/-- State at the top of the main `while` loop of `getMaxFlow`. -/
def initialState (g : PRState) (s t : Nat) : PRState :=
  initPushes (initState g s t) s

/-- One iteration of the main loop: pop `u`, clear its active flag, and
discharge it unless it is the source or the sink. -/
def loopStep (s t : Nat) (g : PRState) : PRState :=
  match g.Q with
  | [] => g
  | u :: rest =>
    let g1 := { g with Q := rest, active := fupd g.active u false }
    if u = s ∨ u = t then g1 else discharge g1 u

/-- The main `while (!Q.empty())` loop, with explicit fuel; returns `none` only
when the fuel is exhausted before the queue empties. -/
def loop (s t : Nat) : Nat → PRState → Option PRState
  | 0, g => if g.Q = [] then some g else none
  | fuel + 1, g => if g.Q = [] then some g else loop s t fuel (loopStep s t g)

/-- Flow value read out at the end of `getMaxFlow`: sum of `flow` over `adj[s]`. -/
def flowOut (g : PRState) (s : Nat) : Int :=
  (g.adj s).foldl (fun a e => a + e.flow) 0

/-- Method `PushRelabel::getMaxFlow(s, t)` with explicit fuel for the main loop. -/
def getMaxFlow (g : PRState) (s t : Nat) (fuel : Nat) : Option Int :=
  (loop s t fuel (initialState g s t)).map (fun g' => flowOut g' s)

/-- State reached when the main loop drains the queue (for inspecting the
final labels). -/
def solveState (g : PRState) (s t : Nat) (fuel : Nat) : Option PRState :=
  loop s t fuel (initialState g s t)

/-! Concrete graphs used by the spec's test scenarios. -/

/-- Diamond: `s→a(10), s→b(10), a→b(5), a→t(10), b→t(10)` on 4 vertices. -/
def diamondEdges : List (Nat × Nat × Int) :=
  [(0, 1, 10), (0, 2, 10), (1, 2, 5), (1, 3, 10), (2, 3, 10)]

/-- Bottleneck chain: vertices `0..4` in a line, capacities `[10, 3, 10, 10]`. -/
def chainEdges : List (Nat × Nat × Int) :=
  [(0, 1, 10), (1, 2, 3), (2, 3, 10), (3, 4, 10)]

/-- Two parallel arcs `0→1` with capacities 4 and 6. -/
def parallelEdges : List (Nat × Nat × Int) :=
  [(0, 1, 4), (0, 1, 6)]

/-- Three-vertex chain `0→1(5), 1→2(3)` (used to exhibit the gap heuristic
relabeling the source). -/
def chain3Edges : List (Nat × Nat × Int) :=
  [(0, 1, 5), (1, 2, 3)]

/-!  A network given by an edge list, and the textbook notion of a feasible
flow and of the maximum flow value, used to certify the solver's outputs. -/

/-- Sum of `f i` over the indices `i` of edges of `es` leaving `v`. -/
def outSum (es : List (Nat × Nat × Int)) (f : Nat → Int) (v : Nat) : Int :=
  (List.range es.length).foldl
    (fun a i => if (es.getD i default).1 = v then a + f i else a) 0

/-- Sum of `f i` over the indices `i` of edges of `es` entering `v`. -/
def inSum (es : List (Nat × Nat × Int)) (f : Nat → Int) (v : Nat) : Int :=
  (List.range es.length).foldl
    (fun a i => if (es.getD i default).2.1 = v then a + f i else a) 0

/-- Predicate: `f` assigns each edge of `es` a flow within its capacity and conserves flow
at every vertex of `0..n-1` other than `s` and `t`. -/
def ValidFlow (n : Nat) (es : List (Nat × Nat × Int)) (s t : Nat)
    (f : Nat → Int) : Prop :=
  (∀ i < es.length, 0 ≤ f i ∧ f i ≤ (es.getD i default).2.2) ∧
  (∀ v < n, v ≠ s → v ≠ t → inSum es f v = outSum es f v)

/-- Net flow out of the source. -/
def flowValue (es : List (Nat × Nat × Int)) (s : Nat) (f : Nat → Int) : Int :=
  outSum es f s - inSum es f s

/-- Predicate: `w` is the maximum-flow value of the network `(n, es, s, t)`. -/
def IsMaxFlowValue (n : Nat) (es : List (Nat × Nat × Int)) (s t : Nat)
    (w : Int) : Prop :=
  (∃ f, ValidFlow n es s t f ∧ flowValue es s f = w) ∧
  (∀ f, ValidFlow n es s t f → flowValue es s f ≤ w)

instance (n : Nat) (es : List (Nat × Nat × Int)) (s t : Nat) (f : Nat → Int) :
    Decidable (ValidFlow n es s t f) := by
  unfold ValidFlow; infer_instance

lemma diamond_max : IsMaxFlowValue 4 diamondEdges 0 3 20 := by
  constructor
  · exact ⟨fun i => [10, 10, 0, 10, 10].getD i 0, by decide, by decide⟩
  · rintro f ⟨hcap, -⟩
    have h0 := hcap 0 (by decide)
    have h1 := hcap 1 (by decide)
    have h2 := hcap 2 (by decide)
    have h3 := hcap 3 (by decide)
    have h4 := hcap 4 (by decide)
    simp [diamondEdges] at h0 h1 h2 h3 h4
    simp [flowValue, outSum, inSum, diamondEdges, List.range_succ]
    omega

lemma chain_max : IsMaxFlowValue 5 chainEdges 0 4 3 := by
  constructor
  · exact ⟨fun i => [3, 3, 3, 3].getD i 0, by decide, by decide⟩
  · rintro f ⟨hcap, hcons⟩
    have h1 := hcap 1 (by decide)
    have hc1 := hcons 1 (by decide) (by decide) (by decide)
    simp [chainEdges] at h1
    simp [inSum, outSum, chainEdges, List.range_succ] at hc1
    simp [flowValue, outSum, inSum, chainEdges, List.range_succ]
    omega

lemma parallel_max : IsMaxFlowValue 2 parallelEdges 0 1 10 := by
  constructor
  · exact ⟨fun i => [4, 6].getD i 0, by decide, by decide⟩
  · rintro f ⟨hcap, -⟩
    have h0 := hcap 0 (by decide)
    have h1 := hcap 1 (by decide)
    simp [parallelEdges] at h0 h1
    simp [flowValue, outSum, inSum, parallelEdges, List.range_succ]
    omega

/-! Basic helper lemmas about pointwise updates and list access. -/

lemma fupd_self {α : Type} (f : Nat → α) (i : Nat) (x : α) : fupd f i x i = x := by
  simp [fupd]

lemma fupd_ne {α : Type} (f : Nat → α) {i j : Nat} (x : α) (h : j ≠ i) :
    fupd f i x j = f j := by
  simp [fupd, h]

lemma getD_set_self {α : Type} [Inhabited α] (l : List α) (i : Nat) (a : α)
    (h : i < l.length) : (l.set i a).getD i default = a := by
  simp [List.getD_eq_getElem?_getD, List.getElem?_set, h]

lemma getD_set_ne {α : Type} [Inhabited α] (l : List α) {i j : Nat} (a : α)
    (h : i ≠ j) : (l.set i a).getD j default = l.getD j default := by
  simp [List.getD_eq_getElem?_getD, List.getElem?_set, h]

lemma getD_append_left {α : Type} [Inhabited α] (l l' : List α) (i : Nat)
    (h : i < l.length) : (l ++ l').getD i default = l.getD i default := by
  simp [List.getD_eq_getElem?_getD, List.getElem?_append, h]

lemma getD_append_self {α : Type} [Inhabited α] (l : List α) (a : α) :
    (l ++ [a]).getD l.length default = a := by
  simp [List.getD_eq_getElem?_getD]

/-- Fold invariance: a property preserved by each step is preserved by `foldl`. -/
lemma foldl_inv {α β : Type} (f : α → β → α) (P : α → Prop) :
    ∀ (l : List β) (a : α), P a → (∀ x b, b ∈ l → P x → P (f x b)) → P (l.foldl f a)
  | [], a, ha, _ => ha
  | b :: l, a, ha, hstep =>
    foldl_inv f P l (f a b) (hstep a b (List.mem_cons_self b l) ha)
      (fun x c hc hx => hstep x c (List.mem_cons_of_mem b hc) hx)

/-- Indexed fold induction over `List.range len`. -/
lemma range_foldl_ind {α : Type} (f : α → Nat → α) (P : Nat → α → Prop) :
    ∀ (len : Nat) (a : α), P 0 a →
      (∀ k x, k < len → P k x → P (k + 1) (f x k)) →
      P len ((List.range len).foldl f a) := by
  intro len
  induction len with
  | zero => intro a h0 _; simpa using h0
  | succ m ih =>
    intro a h0 hstep
    rw [List.range_succ, List.foldl_append]
    simp only [List.foldl_cons, List.foldl_nil]
    exact hstep m _ (Nat.lt_succ_self m)
      (ih a h0 (fun k x hk hx => hstep k x (Nat.lt_succ_of_lt hk) hx))

/-! The invariants maintained by the solver. -/

/-- Arc of index `i` in the adjacency list of `u` (default arc out of range). -/
def arc (g : PRState) (u i : Nat) : Edge := (g.adj u).getD i default

/-- Sum of the `flow` fields of a list of arcs. -/
def sumFlow (l : List Edge) : Int := l.foldl (fun a e => a + e.flow) 0

/-- Structural well-formedness of the paired-arc adjacency representation:
arcs stay inside the vertex range, are never self-loops, and every arc knows
the position of its reverse arc, which points back at it. -/
def WF (g : PRState) : Prop :=
  ∀ u i, i < (g.adj u).length →
    u < g.n ∧ (arc g u i).«to» < g.n ∧ (arc g u i).«to» ≠ u ∧
    (arc g u i).rev < (g.adj (arc g u i).«to»).length ∧
    (arc g (arc g u i).«to» (arc g u i).rev).«to» = u ∧
    (arc g (arc g u i).«to» (arc g u i).rev).rev = i

/-- All arc capacities are nonnegative. -/
def CapNonneg (g : PRState) : Prop :=
  ∀ u i, i < (g.adj u).length → 0 ≤ (arc g u i).cap

/-- Every arc's flow is bounded by its capacity. -/
def FlowLe (g : PRState) : Prop :=
  ∀ u i, i < (g.adj u).length → (arc g u i).flow ≤ (arc g u i).cap

/-- Paired arcs carry opposite flows. -/
def FlowAnti (g : PRState) : Prop :=
  ∀ u i, i < (g.adj u).length →
    (arc g (arc g u i).«to» (arc g u i).rev).flow = -(arc g u i).flow

/-- Height validity: every residual arc climbs by at most one. -/
def Valid (g : PRState) : Prop :=
  ∀ u i, i < (g.adj u).length → 0 < (arc g u i).cap - (arc g u i).flow →
    g.dist u ≤ g.dist (arc g u i).«to» + 1

/-- Number of vertices currently at height `h`, as an integer. -/
def heightCount (g : PRState) (h : Nat) : Int :=
  ∑ v ∈ Finset.range g.n, if g.dist v = h then (1 : Int) else 0

/-- Excess accounting: away from `s`, the recorded excess of a vertex equals
the negated sum of the flows on its adjacency list. -/
def ExAcct (s : Nat) (g : PRState) : Prop :=
  ∀ v, v ≠ s → g.excess v = -sumFlow (g.adj v)

/-- The inductive invariant maintained from the end of preflow initialisation
through every iteration of the main loop of `getMaxFlow`. -/
structure Inv (s t : Nat) (g : PRState) : Prop where
  hn : 1 ≤ g.n
  hs : s < g.n
  ht : t < g.n
  hst : s ≠ t
  wf : WF g
  capNN : CapNonneg g
  flowLe : FlowLe g
  flowAnti : FlowAnti g
  valid : Valid g
  exAcct : ExAcct s g
  exNN : ∀ v, 0 ≤ g.excess v
  distS : g.dist s = g.n ∨ g.dist s = g.n + 1
  distT : g.dist t = 0
  distLe : ∀ v, g.dist v ≤ 2 * g.n
  countC : ∀ h, g.count h = heightCount g h
  activeS : g.active s = true
  activeT : g.active t = true
  nodup : g.Q.Nodup
  sNotQ : s ∉ g.Q
  tNotQ : t ∉ g.Q
  memLt : ∀ v ∈ g.Q, v < g.n
  activeIff : ∀ v, v ≠ s → v ≠ t → (g.active v = true ↔ v ∈ g.Q)
  exPos : ∀ v ∈ g.Q, 0 < g.excess v

/-! Effect of `enqueue`. -/

@[simp] lemma enqueue_n (g : PRState) (v : Nat) : (enqueue g v).n = g.n := by
  unfold enqueue; split <;> rfl

@[simp] lemma enqueue_adj (g : PRState) (v : Nat) : (enqueue g v).adj = g.adj := by
  unfold enqueue; split <;> rfl

@[simp] lemma enqueue_excess (g : PRState) (v : Nat) :
    (enqueue g v).excess = g.excess := by
  unfold enqueue; split <;> rfl

@[simp] lemma enqueue_dist (g : PRState) (v : Nat) : (enqueue g v).dist = g.dist := by
  unfold enqueue; split <;> rfl

@[simp] lemma enqueue_count (g : PRState) (v : Nat) :
    (enqueue g v).count = g.count := by
  unfold enqueue; split <;> rfl

lemma enqueue_of_pos (g : PRState) (v : Nat) (h1 : g.active v = false)
    (h2 : 0 < g.excess v) :
    enqueue g v = { g with active := fupd g.active v true, Q := g.Q ++ [v] } := by
  unfold enqueue; rw [if_pos ⟨h1, h2⟩]

lemma enqueue_of_neg (g : PRState) (v : Nat)
    (h : ¬(g.active v = false ∧ 0 < g.excess v)) : enqueue g v = g := by
  unfold enqueue; rw [if_neg h]

lemma enqueue_inv {s t : Nat} {g : PRState} (v : Nat) (hv : v < g.n)
    (H : Inv s t g) : Inv s t (enqueue g v) := by
  by_cases hc : g.active v = false ∧ 0 < g.excess v
  · obtain ⟨h1, h2⟩ := hc
    have hvs : v ≠ s := fun h => by rw [h] at h1; rw [H.activeS] at h1; cases h1
    have hvt : v ≠ t := fun h => by rw [h] at h1; rw [H.activeT] at h1; cases h1
    have hvQ : v ∉ g.Q := fun hm => by
      have := (H.activeIff v hvs hvt).mpr hm; rw [h1] at this; cases this
    rw [enqueue_of_pos g v h1 h2]
    refine ⟨H.hn, H.hs, H.ht, H.hst, H.wf, H.capNN, H.flowLe, H.flowAnti, H.valid,
      H.exAcct, H.exNN, H.distS, H.distT, H.distLe, H.countC, ?_, ?_, ?_, ?_, ?_,
      ?_, ?_, ?_⟩
    · show fupd g.active v true s = true
      rw [fupd_ne g.active true (Ne.symm hvs)]; exact H.activeS
    · show fupd g.active v true t = true
      rw [fupd_ne g.active true (Ne.symm hvt)]; exact H.activeT
    · show (g.Q ++ [v]).Nodup
      rw [List.nodup_append]
      exact ⟨H.nodup, List.nodup_singleton v, by
        intro a ha hb
        rw [List.mem_singleton] at hb
        exact hvQ (hb ▸ ha)⟩
    · show s ∉ g.Q ++ [v]
      rw [List.mem_append, List.mem_singleton]
      rintro (h | h); exacts [H.sNotQ h, hvs h.symm]
    · show t ∉ g.Q ++ [v]
      rw [List.mem_append, List.mem_singleton]
      rintro (h | h); exacts [H.tNotQ h, hvt h.symm]
    · intro w hw
      rw [List.mem_append, List.mem_singleton] at hw
      rcases hw with h | h
      · exact H.memLt w h
      · exact h ▸ hv
    · intro w hws hwt
      show fupd g.active v true w = true ↔ w ∈ g.Q ++ [v]
      by_cases hwv : w = v
      · subst hwv
        constructor
        · intro _; rw [List.mem_append, List.mem_singleton]; right; rfl
        · intro _; simp [fupd]
      · rw [fupd_ne g.active true hwv, List.mem_append, List.mem_singleton]
        rw [H.activeIff w hws hwt]
        constructor
        · intro h; left; exact h
        · rintro (h | h); exacts [h, absurd h hwv]
    · intro w hw
      rw [List.mem_append, List.mem_singleton] at hw
      rcases hw with h | h
      · exact H.exPos w h
      · exact h ▸ h2
  · rw [enqueue_of_neg g v hc]; exact H

/-! Effect of `pushOp`. -/

/-- Amount moved by a push: `min(excess[u], residual capacity of the arc)`. -/
def amtOf (g : PRState) (u i : Nat) : Int :=
  min (g.excess u) ((arc g u i).cap - (arc g u i).flow)

lemma pushOp_of_neg (g : PRState) (u i : Nat)
    (h : g.dist u ≤ g.dist (arc g u i).«to» ∨ amtOf g u i = 0) :
    pushOp g u i = g := by
  simp only [arc, amtOf] at h
  simp only [pushOp]
  rw [if_pos h]

lemma pushOp_of_act (g : PRState) (u i : Nat)
    (h : ¬(g.dist u ≤ g.dist (arc g u i).«to» ∨ amtOf g u i = 0))
    (hne : (arc g u i).«to» ≠ u) :
    pushOp g u i =
      enqueue
        { g with
          adj := fupd
            (fupd g.adj u ((g.adj u).set i
              { arc g u i with flow := (arc g u i).flow + amtOf g u i }))
            (arc g u i).«to»
            ((g.adj (arc g u i).«to»).set (arc g u i).rev
              { arc g (arc g u i).«to» (arc g u i).rev with
                flow := (arc g (arc g u i).«to» (arc g u i).rev).flow - amtOf g u i }),
          excess := fupd (fupd g.excess u (g.excess u - amtOf g u i))
            (arc g u i).«to» (g.excess (arc g u i).«to» + amtOf g u i) }
        (arc g u i).«to» := by
  have hne' := hne
  simp only [arc, amtOf] at h hne ⊢
  simp only [pushOp]
  rw [if_neg h]
  rw [fupd_ne g.adj _ hne, fupd_ne g.excess _ hne]

lemma sumFlow_cons (e : Edge) (l : List Edge) :
    sumFlow (e :: l) = e.flow + sumFlow l := by
  have key : ∀ (l : List Edge) (c : Int),
      l.foldl (fun a e => a + e.flow) c = c + sumFlow l := by
    intro l
    induction l with
    | nil => intro c; simp [sumFlow]
    | cons x xs ih =>
      intro c
      show xs.foldl _ (c + x.flow) = c + sumFlow (x :: xs)
      rw [ih (c + x.flow)]
      show c + x.flow + sumFlow xs = c + (x :: xs).foldl _ 0
      show c + x.flow + sumFlow xs = c + xs.foldl _ (0 + x.flow)
      rw [ih (0 + x.flow)]
      ring
  show l.foldl _ (0 + e.flow) = e.flow + sumFlow l
  rw [key l (0 + e.flow)]
  ring

lemma sumFlow_set (l : List Edge) (i : Nat) (e' : Edge) :
    ∀ _ : i < l.length,
      sumFlow (l.set i e') = sumFlow l - (l.getD i default).flow + e'.flow := by
  induction l generalizing i with
  | nil => intro h; cases h
  | cons x xs ih =>
    intro h
    cases i with
    | zero =>
      simp only [List.set_cons_zero, List.getD_cons_zero]
      rw [sumFlow_cons, sumFlow_cons]; ring
    | succ j =>
      simp only [List.set_cons_succ, List.getD_cons_succ]
      rw [sumFlow_cons, sumFlow_cons, ih j (Nat.lt_of_succ_lt_succ h)]; ring

lemma sumFlow_append_one (l : List Edge) (e : Edge) :
    sumFlow (l ++ [e]) = sumFlow l + e.flow := by
  induction l with
  | nil => simp [sumFlow]
  | cons x xs ih =>
    rw [List.cons_append, sumFlow_cons, sumFlow_cons, ih]; ring

lemma getD_of_le {α : Type} [Inhabited α] (l : List α) {j : Nat}
    (h : l.length ≤ j) : l.getD j default = default := by
  simp [List.getD_eq_getElem?_getD, List.getElem?_eq_none h]

lemma pushOp_inv {s t : Nat} {g : PRState} (u i : Nat) (hi : i < (g.adj u).length)
    (huQ : u ∉ g.Q) (H : Inv s t g) : Inv s t (pushOp g u i) := by
  by_cases hact : g.dist u ≤ g.dist (arc g u i).«to» ∨ amtOf g u i = 0
  · rw [pushOp_of_neg g u i hact]; exact H
  obtain ⟨hun, hton, htne, hrevlt, hpto, hprev⟩ := H.wf u i hi
  rw [not_or] at hact
  obtain ⟨hdle, hamt0⟩ := hact
  have hdlt : g.dist (arc g u i).«to» < g.dist u := Nat.lt_of_not_le hdle
  have hune : u ≠ (arc g u i).«to» := Ne.symm htne
  rw [pushOp_of_act g u i (by rw [not_or]; exact ⟨hdle, hamt0⟩) htne]
  set E := arc g u i with hE
  set P := arc g E.«to» E.rev with hP
  set amt := amtOf g u i with hamt
  set G : PRState :=
    { g with
      adj := fupd (fupd g.adj u ((g.adj u).set i { E with flow := E.flow + amt }))
        E.«to» ((g.adj E.«to»).set E.rev { P with flow := P.flow - amt }),
      excess := fupd (fupd g.excess u (g.excess u - amt)) E.«to»
        (g.excess E.«to» + amt) } with hG
  have hGn : G.n = g.n := rfl
  have hamt_le_exc : amt ≤ g.excess u := min_le_left _ _
  have hamt_le_res : amt ≤ E.cap - E.flow := min_le_right _ _
  have hres_nn : 0 ≤ E.cap - E.flow := sub_nonneg.mpr (H.flowLe u i hi)
  have hamt_nn : 0 ≤ amt := le_min (H.exNN u) hres_nn
  have hamt_pos : 0 < amt := lt_of_le_of_ne hamt_nn (Ne.symm hamt0)
  have hPflow : P.flow = -E.flow := H.flowAnti u i hi
  have hadj_to : G.adj E.«to» = (g.adj E.«to»).set E.rev { P with flow := P.flow - amt } :=
    fupd_self _ _ _
  have hadj_u : G.adj u = (g.adj u).set i { E with flow := E.flow + amt } := by
    show fupd _ E.«to» _ u = _
    rw [fupd_ne _ _ hune, fupd_self]
  have hadj_other : ∀ w, w ≠ u → w ≠ E.«to» → G.adj w = g.adj w := by
    intro w h1 h2
    show fupd _ E.«to» _ w = _
    rw [fupd_ne _ _ h2, fupd_ne _ _ h1]
  have hlen : ∀ w, (G.adj w).length = (g.adj w).length := by
    intro w
    by_cases h1 : w = u
    · subst h1; rw [hadj_u, List.length_set]
    by_cases h2 : w = E.«to»
    · subst h2; rw [hadj_to, List.length_set]
    · rw [hadj_other w h1 h2]
  have harc_ui : arc G u i = { E with flow := E.flow + amt } := by
    rw [arc, hadj_u]; exact getD_set_self _ _ _ hi
  have harc_pair : arc G E.«to» E.rev = { P with flow := P.flow - amt } := by
    rw [arc, hadj_to]; exact getD_set_self _ _ _ hrevlt
  have harc_other : ∀ w j, ¬(w = u ∧ j = i) → ¬(w = E.«to» ∧ j = E.rev) →
      arc G w j = arc g w j := by
    intro w j h1 h2
    by_cases hw1 : w = u
    · subst hw1
      have hji : i ≠ j := fun h => h1 ⟨rfl, h.symm⟩
      rw [arc, hadj_u, getD_set_ne _ _ hji]; rfl
    by_cases hw2 : w = E.«to»
    · subst hw2
      have hji : E.rev ≠ j := fun h => h2 ⟨rfl, h.symm⟩
      rw [arc, hadj_to, getD_set_ne _ _ hji]; rfl
    · rw [arc, hadj_other w hw1 hw2]; rfl
  have hstat : ∀ w j, (arc G w j).«to» = (arc g w j).«to» ∧
      (arc G w j).rev = (arc g w j).rev ∧ (arc G w j).cap = (arc g w j).cap := by
    intro w j
    by_cases h1 : w = u ∧ j = i
    · obtain ⟨rfl, rfl⟩ := h1
      rw [harc_ui]; exact ⟨rfl, rfl, rfl⟩
    by_cases h2 : w = E.«to» ∧ j = E.rev
    · obtain ⟨rfl, rfl⟩ := h2
      rw [harc_pair]; exact ⟨rfl, rfl, rfl⟩
    · rw [harc_other w j h1 h2]; exact ⟨rfl, rfl, rfl⟩
  have huniq1 : ∀ w j, j < (g.adj w).length → (arc g w j).«to» = u →
      (arc g w j).rev = i → w = E.«to» ∧ j = E.rev := by
    intro w j hj h1 h2
    obtain ⟨-, -, -, -, hp1, hp2⟩ := H.wf w j hj
    rw [h1, h2] at hp1 hp2
    exact ⟨hp1.symm, hp2.symm⟩
  have huniq2 : ∀ w j, j < (g.adj w).length → (arc g w j).«to» = E.«to» →
      (arc g w j).rev = E.rev → w = u ∧ j = i := by
    intro w j hj h1 h2
    obtain ⟨-, -, -, -, hp1, hp2⟩ := H.wf w j hj
    rw [h1, h2] at hp1 hp2
    rw [← hP] at hp1 hp2
    rw [hpto] at hp1
    rw [hprev] at hp2
    exact ⟨hp1.symm, hp2.symm⟩
  have hex_u : G.excess u = g.excess u - amt := by
    show fupd _ E.«to» _ u = _
    rw [fupd_ne _ _ hune, fupd_self]
  have hex_to : G.excess E.«to» = g.excess E.«to» + amt := fupd_self _ _ _
  have hex_other : ∀ v, v ≠ u → v ≠ E.«to» → G.excess v = g.excess v := by
    intro v h1 h2
    show fupd _ E.«to» _ v = _
    rw [fupd_ne _ _ h2, fupd_ne _ _ h1]
  have hInvG : Inv s t G := by
    refine ⟨H.hn, H.hs, H.ht, H.hst, ?_, ?_, ?_, ?_, ?_, ?_, ?_, H.distS, H.distT,
      H.distLe, H.countC, H.activeS, H.activeT, H.nodup, H.sNotQ, H.tNotQ,
      H.memLt, H.activeIff, ?_⟩
    · -- WF
      intro w j hj
      rw [hlen] at hj
      obtain ⟨k1, k2, k3, k4, k5, k6⟩ := H.wf w j hj
      obtain ⟨s1, s2, -⟩ := hstat w j
      refine ⟨k1, ?_, ?_, ?_, ?_, ?_⟩
      · rw [s1]; exact k2
      · rw [s1]; exact k3
      · rw [s1, s2, hlen]; exact k4
      · rw [s1, s2]
        obtain ⟨t1, -, -⟩ := hstat (arc g w j).«to» (arc g w j).rev
        rw [t1]; exact k5
      · rw [s1, s2]
        obtain ⟨-, t2, -⟩ := hstat (arc g w j).«to» (arc g w j).rev
        rw [t2]; exact k6
    · -- CapNonneg
      intro w j hj
      rw [hlen] at hj
      obtain ⟨-, -, s3⟩ := hstat w j
      rw [s3]; exact H.capNN w j hj
    · -- FlowLe
      intro w j hj
      rw [hlen] at hj
      by_cases h1 : w = u ∧ j = i
      · obtain ⟨rfl, rfl⟩ := h1
        rw [harc_ui]
        show E.flow + amt ≤ E.cap
        have := hamt_le_res; omega
      by_cases h2 : w = E.«to» ∧ j = E.rev
      · obtain ⟨rfl, rfl⟩ := h2
        rw [harc_pair]
        show P.flow - amt ≤ P.cap
        have := H.flowLe E.«to» E.rev hrevlt
        rw [← hP] at this; omega
      · rw [harc_other w j h1 h2]; exact H.flowLe w j hj
    · -- FlowAnti
      intro w j hj
      rw [hlen] at hj
      by_cases h1 : w = u ∧ j = i
      · obtain ⟨rfl, rfl⟩ := h1
        rw [harc_ui]
        show (arc G E.«to» E.rev).flow = -(E.flow + amt)
        rw [harc_pair]
        show P.flow - amt = -(E.flow + amt)
        rw [hPflow]; ring
      by_cases h2 : w = E.«to» ∧ j = E.rev
      · obtain ⟨rfl, rfl⟩ := h2
        rw [harc_pair]
        show (arc G P.«to» P.rev).flow = -(P.flow - amt)
        rw [hpto, hprev, harc_ui]
        show E.flow + amt = -(P.flow - amt)
        rw [hPflow]; ring
      · rw [harc_other w j h1 h2]
        have hq1 : ¬((arc g w j).«to» = u ∧ (arc g w j).rev = i) := by
          rintro ⟨q1, q2⟩
          exact h2 (huniq1 w j hj q1 q2)
        have hq2 : ¬((arc g w j).«to» = E.«to» ∧ (arc g w j).rev = E.rev) := by
          rintro ⟨q1, q2⟩
          exact h1 (huniq2 w j hj q1 q2)
        rw [harc_other _ _ hq1 hq2]
        exact H.flowAnti w j hj
    · -- Valid
      intro w j hj hres
      rw [hlen] at hj
      obtain ⟨s1, -, -⟩ := hstat w j
      show g.dist w ≤ g.dist (arc G w j).«to» + 1
      rw [s1]
      by_cases h1 : w = u ∧ j = i
      · obtain ⟨rfl, rfl⟩ := h1
        rw [harc_ui] at hres
        have hres' : 0 < E.cap - E.flow := by
          show (0 : Int) < _
          have : (0 : Int) < E.cap - (E.flow + amt) := hres
          omega
        exact H.valid w j hj hres'
      by_cases h2 : w = E.«to» ∧ j = E.rev
      · obtain ⟨rfl, rfl⟩ := h2
        rw [hpto]
        omega
      · rw [harc_other w j h1 h2] at hres
        exact H.valid w j hj hres
    · -- ExAcct
      intro v hvs
      by_cases hv1 : v = u
      · subst hv1
        rw [hex_u, hadj_u, sumFlow_set _ _ _ hi]
        have := H.exAcct v hvs
        rw [← hE] at *
        show g.excess v - amt = -(sumFlow (g.adj v) - E.flow + (E.flow + amt))
        omega
      by_cases hv2 : v = E.«to»
      · subst hv2
        rw [hex_to, hadj_to, sumFlow_set _ _ _ hrevlt]
        have := H.exAcct E.«to» hvs
        rw [← hP] at *
        show g.excess E.«to» + amt = -(sumFlow (g.adj E.«to») - P.flow + (P.flow - amt))
        omega
      · rw [hex_other v hv1 hv2, hadj_other v hv1 hv2]
        exact H.exAcct v hvs
    · -- exNN
      intro v
      by_cases hv1 : v = u
      · subst hv1; rw [hex_u]; omega
      by_cases hv2 : v = E.«to»
      · subst hv2; rw [hex_to]
        have := H.exNN E.«to»
        omega
      · rw [hex_other v hv1 hv2]; exact H.exNN v
    · -- exPos
      intro v hv
      by_cases hv2 : v = E.«to»
      · subst hv2; rw [hex_to]
        have := H.exPos E.«to» hv
        omega
      · have hv1 : v ≠ u := fun h => huQ (h ▸ hv)
        rw [hex_other v hv1 hv2]
        exact H.exPos v hv
  exact enqueue_inv E.«to» (by rw [hGn] at *; exact hton) hInvG

/-! Transport lemmas along field equalities, and the queue bundle. -/

lemma wf_of_eq {g' g : PRState} (h1 : g'.adj = g.adj) (h2 : g'.n = g.n)
    (h : WF g) : WF g' := by
  unfold WF arc
  rw [h1, h2]
  exact h

lemma capNN_of_eq {g' g : PRState} (h1 : g'.adj = g.adj) (h : CapNonneg g) :
    CapNonneg g' := by
  unfold CapNonneg arc
  rw [h1]
  exact h

lemma flowLe_of_eq {g' g : PRState} (h1 : g'.adj = g.adj) (h : FlowLe g) :
    FlowLe g' := by
  unfold FlowLe arc
  rw [h1]
  exact h

lemma flowAnti_of_eq {g' g : PRState} (h1 : g'.adj = g.adj) (h : FlowAnti g) :
    FlowAnti g' := by
  unfold FlowAnti arc
  rw [h1]
  exact h

lemma exAcct_of_eq {s : Nat} {g' g : PRState} (h1 : g'.adj = g.adj)
    (h2 : g'.excess = g.excess) (h : ExAcct s g) : ExAcct s g' := by
  unfold ExAcct
  rw [h1, h2]
  exact h

lemma heightCount_of_eq {g' g : PRState} (h1 : g'.dist = g.dist)
    (h2 : g'.n = g.n) (h : Nat) : heightCount g' h = heightCount g h := by
  unfold heightCount
  rw [h1, h2]

/-- The queue-related components of the invariant, as a standalone bundle. -/
def QBundle (s t : Nat) (x : PRState) : Prop :=
  x.active s = true ∧ x.active t = true ∧ x.Q.Nodup ∧ s ∉ x.Q ∧ t ∉ x.Q ∧
  (∀ w ∈ x.Q, w < x.n) ∧ (∀ w, w ≠ s → w ≠ t → (x.active w = true ↔ w ∈ x.Q)) ∧
  (∀ w ∈ x.Q, 0 < x.excess w)

lemma enqueue_qbundle {s t : Nat} {x : PRState} (v : Nat) (hv : v < x.n)
    (h : QBundle s t x) : QBundle s t (enqueue x v) := by
  obtain ⟨hS, hT, hnd, hsQ, htQ, hlt, hiff, hpos⟩ := h
  by_cases hc : x.active v = false ∧ 0 < x.excess v
  · obtain ⟨h1, h2⟩ := hc
    have hvs : v ≠ s := fun h => by rw [h] at h1; rw [hS] at h1; cases h1
    have hvt : v ≠ t := fun h => by rw [h] at h1; rw [hT] at h1; cases h1
    have hvQ : v ∉ x.Q := fun hm => by
      have := (hiff v hvs hvt).mpr hm; rw [h1] at this; cases this
    rw [enqueue_of_pos x v h1 h2]
    refine ⟨?_, ?_, ?_, ?_, ?_, ?_, ?_, ?_⟩
    · show fupd x.active v true s = true
      rw [fupd_ne x.active true (Ne.symm hvs)]; exact hS
    · show fupd x.active v true t = true
      rw [fupd_ne x.active true (Ne.symm hvt)]; exact hT
    · show (x.Q ++ [v]).Nodup
      rw [List.nodup_append]
      exact ⟨hnd, List.nodup_singleton v, by
        intro a ha hb
        rw [List.mem_singleton] at hb
        exact hvQ (hb ▸ ha)⟩
    · show s ∉ x.Q ++ [v]
      rw [List.mem_append, List.mem_singleton]
      rintro (h | h); exacts [hsQ h, hvs h.symm]
    · show t ∉ x.Q ++ [v]
      rw [List.mem_append, List.mem_singleton]
      rintro (h | h); exacts [htQ h, hvt h.symm]
    · intro w hw
      rw [List.mem_append, List.mem_singleton] at hw
      rcases hw with h | h
      · exact hlt w h
      · exact h ▸ hv
    · intro w hws hwt
      show fupd x.active v true w = true ↔ w ∈ x.Q ++ [v]
      by_cases hwv : w = v
      · subst hwv
        constructor
        · intro _; rw [List.mem_append, List.mem_singleton]; right; rfl
        · intro _; simp [fupd]
      · rw [fupd_ne x.active true hwv, List.mem_append, List.mem_singleton]
        rw [hiff w hws hwt]
        constructor
        · intro h; left; exact h
        · rintro (h | h); exacts [h, absurd h hwv]
    · intro w hw
      rw [List.mem_append, List.mem_singleton] at hw
      rcases hw with h | h
      · exact hpos w h
      · exact h ▸ h2
  · rw [enqueue_of_neg x v hc]; exact ⟨hS, hT, hnd, hsQ, htQ, hlt, hiff, hpos⟩

lemma heightCount_update (x : PRState) (v d2 : Nat) (hv : v < x.n) (h : Nat) :
    heightCount { x with dist := fupd x.dist v d2 } h =
      heightCount x h - (if x.dist v = h then 1 else 0)
        + (if d2 = h then 1 else 0) := by
  unfold heightCount
  have hins : Finset.range x.n = insert v ((Finset.range x.n).erase v) :=
    (Finset.insert_erase (Finset.mem_range.mpr hv)).symm
  show (∑ w ∈ Finset.range x.n, if fupd x.dist v d2 w = h then (1 : Int) else 0) = _
  rw [hins, Finset.sum_insert (Finset.not_mem_erase v _),
    Finset.sum_insert (Finset.not_mem_erase v _)]
  have hcong : (∑ w ∈ (Finset.range x.n).erase v,
      if fupd x.dist v d2 w = h then (1 : Int) else 0) =
      ∑ w ∈ (Finset.range x.n).erase v, if x.dist w = h then (1 : Int) else 0 := by
    refine Finset.sum_congr rfl ?_
    intro w hw
    rw [fupd_ne x.dist d2 (Finset.ne_of_mem_erase hw)]
  rw [hcong, fupd_self x.dist v d2]
  split_ifs <;> ring

/-! Effect of `gapOp`. -/

lemma gap_static (g : PRState) (k : Nat) :
    (gapOp g k).adj = g.adj ∧ (gapOp g k).excess = g.excess ∧
      (gapOp g k).n = g.n := by
  unfold gapOp
  refine foldl_inv _ (fun x => x.adj = g.adj ∧ x.excess = g.excess ∧ x.n = g.n)
    (List.range g.n) g ⟨rfl, rfl, rfl⟩ ?_
  intro x v _ ⟨h1, h2, h3⟩
  by_cases hc : x.dist v < k
  · rw [if_pos hc]; exact ⟨h1, h2, h3⟩
  · rw [if_neg hc]
    refine ⟨?_, ?_, ?_⟩ <;> simp [h1, h2, h3]

lemma gap_dist (g : PRState) (k : Nat) :
    ∀ v, (gapOp g k).dist v =
      if v < g.n ∧ k ≤ g.dist v then max (g.dist v) (g.n + 1) else g.dist v := by
  have main := range_foldl_ind
    (fun x v =>
      if x.dist v < k then x
      else
        let g1 := { x with count := fupd x.count (x.dist v) (x.count (x.dist v) - 1) }
        let d2 := max (g1.dist v) (g1.n + 1)
        let g2 := { g1 with dist := fupd g1.dist v d2 }
        let g3 := { g2 with count := fupd g2.count d2 (g2.count d2 + 1) }
        enqueue g3 v)
    (fun m x => x.n = g.n ∧ ∀ v,
      x.dist v = if v < m ∧ k ≤ g.dist v then max (g.dist v) (g.n + 1) else g.dist v)
    g.n g ⟨rfl, by intro v; simp⟩ ?_
  · exact main.2
  intro m x hm hP
  beta_reduce
  obtain ⟨hxn, hx⟩ := hP
  have hxm : x.dist m = g.dist m := by
    rw [hx m]
    simp
  have hiff : ∀ v, v ≠ m →
      ((v < m + 1 ∧ k ≤ g.dist v) ↔ (v < m ∧ k ≤ g.dist v)) := by
    intro v hvm
    constructor
    · rintro ⟨h1, h2⟩; exact ⟨Nat.lt_of_le_of_ne (Nat.le_of_lt_succ h1) hvm, h2⟩
    · rintro ⟨h1, h2⟩; exact ⟨Nat.lt_succ_of_lt h1, h2⟩
  by_cases hc : x.dist m < k
  · rw [if_pos hc]
    refine ⟨hxn, fun v => ?_⟩
    rw [hx v]
    by_cases hvm : v = m
    · subst hvm
      rw [hxm] at hc
      have h1 : ¬(v < v ∧ k ≤ g.dist v) := by omega
      have h2 : ¬(v < v + 1 ∧ k ≤ g.dist v) := by omega
      rw [if_neg h1, if_neg h2]
    · rw [if_congr (hiff v hvm) rfl rfl]
  · rw [if_neg hc]
    refine ⟨by simp [hxn], fun v => ?_⟩
    simp only [enqueue_dist]
    show fupd x.dist m (max (x.dist m) (x.n + 1)) v = _
    by_cases hvm : v = m
    · subst hvm
      rw [fupd_self, hxm, hxn]
      rw [if_pos ⟨Nat.lt_succ_self v, by rw [hxm] at hc; exact Nat.le_of_not_lt hc⟩]
    · rw [fupd_ne x.dist _ hvm, hx v, if_congr (hiff v hvm) rfl rfl]

lemma gapOp_inv {s t k : Nat} {g : PRState} (hk : 1 ≤ k)
    (hcross : ∀ w j, j < (g.adj w).length →
      0 < (arc g w j).cap - (arc g w j).flow →
      k ≤ g.dist w → k ≤ g.dist (arc g w j).«to»)
    (H : Inv s t g) : Inv s t (gapOp g k) := by
  obtain ⟨hadj, hexc, hn⟩ := gap_static g k
  have hdist := gap_dist g k
  have harc : ∀ w j, arc (gapOp g k) w j = arc g w j := by
    intro w j
    rw [arc, arc, hadj]
  have bundle : (gapOp g k).n = g.n ∧ (QBundle s t (gapOp g k) ∧
      (∀ h, (gapOp g k).count h = heightCount (gapOp g k) h) ∧
      ((gapOp g k).dist s = g.n ∨ (gapOp g k).dist s = g.n + 1) ∧
      (gapOp g k).dist t = 0 ∧ (∀ v, (gapOp g k).dist v ≤ 2 * g.n)) := by
    refine foldl_inv
      (fun x v =>
        if x.dist v < k then x
        else
          let g1 := { x with count := fupd x.count (x.dist v) (x.count (x.dist v) - 1) }
          let d2 := max (g1.dist v) (g1.n + 1)
          let g2 := { g1 with dist := fupd g1.dist v d2 }
          let g3 := { g2 with count := fupd g2.count d2 (g2.count d2 + 1) }
          enqueue g3 v)
      (fun x => x.n = g.n ∧ (QBundle s t x ∧
        (∀ h, x.count h = heightCount x h) ∧
        (x.dist s = g.n ∨ x.dist s = g.n + 1) ∧
        x.dist t = 0 ∧ (∀ v, x.dist v ≤ 2 * g.n)))
      (List.range g.n) g
      ⟨rfl, ⟨H.activeS, H.activeT, H.nodup, H.sNotQ, H.tNotQ, H.memLt,
        H.activeIff, H.exPos⟩, H.countC, H.distS, H.distT, H.distLe⟩ ?_
    intro x v hv hP
    beta_reduce
    obtain ⟨hxn, hQB, hCC, hDS, hDT, hDL⟩ := hP
    have hvn : v < g.n := List.mem_range.mp hv
    by_cases hc : x.dist v < k
    · rw [if_pos hc]
      exact ⟨hxn, hQB, hCC, hDS, hDT, hDL⟩
    rw [if_neg hc]
    have hkv : k ≤ x.dist v := Nat.le_of_not_lt hc
    have hvt : v ≠ t := by
      intro hvt
      rw [hvt, hDT] at hkv
      omega
    set y : PRState :=
      { x with
        count := fupd (fupd x.count (x.dist v) (x.count (x.dist v) - 1))
          (max (x.dist v) (x.n + 1))
          (fupd x.count (x.dist v) (x.count (x.dist v) - 1)
            (max (x.dist v) (x.n + 1)) + 1),
        dist := fupd x.dist v (max (x.dist v) (x.n + 1)) } with hy
    show (enqueue y v).n = g.n ∧ (QBundle s t (enqueue y v) ∧
      (∀ h, (enqueue y v).count h = heightCount (enqueue y v) h) ∧
      ((enqueue y v).dist s = g.n ∨ (enqueue y v).dist s = g.n + 1) ∧
      (enqueue y v).dist t = 0 ∧ (∀ w, (enqueue y v).dist w ≤ 2 * g.n))
    refine ⟨?_, ?_, ?_, ?_, ?_, ?_⟩
    · rw [enqueue_n]
      show x.n = g.n
      exact hxn
    · refine enqueue_qbundle v ?_ ?_
      · show v < x.n
        rw [hxn]; exact hvn
      · exact hQB
    · -- histogram consistency
      intro h
      rw [enqueue_count]
      have hHC : heightCount (enqueue y v) h =
          heightCount x h - (if x.dist v = h then 1 else 0)
            + (if max (x.dist v) (x.n + 1) = h then 1 else 0) := by
        rw [heightCount_of_eq (enqueue_dist y v) (enqueue_n y v)]
        exact heightCount_update x v (max (x.dist v) (x.n + 1))
          (by rw [hxn]; exact hvn) h
      rw [hHC]
      show fupd (fupd x.count (x.dist v) (x.count (x.dist v) - 1))
        (max (x.dist v) (x.n + 1))
        (fupd x.count (x.dist v) (x.count (x.dist v) - 1)
          (max (x.dist v) (x.n + 1)) + 1) h = _
      by_cases hhM : h = max (x.dist v) (x.n + 1)
      · subst hhM
        rw [fupd_self]
        by_cases hMd : max (x.dist v) (x.n + 1) = x.dist v
        · rw [hMd, fupd_self, if_pos rfl]
          have e := hCC (x.dist v)
          omega
        · rw [fupd_ne x.count _ hMd, if_neg (fun hh => hMd hh.symm), if_pos rfl]
          have e := hCC (max (x.dist v) (x.n + 1))
          omega
      · rw [fupd_ne _ _ hhM]
        by_cases hhd : h = x.dist v
        · subst hhd
          rw [fupd_self, if_pos rfl, if_neg (fun hh => hhM hh.symm)]
          have e := hCC (x.dist v)
          omega
        · rw [fupd_ne x.count _ hhd, if_neg (fun hh => hhd hh.symm),
            if_neg (fun hh => hhM hh.symm)]
          have e := hCC h
          omega
    · -- source height
      rw [enqueue_dist]
      show fupd x.dist v (max (x.dist v) (x.n + 1)) s = g.n ∨
        fupd x.dist v (max (x.dist v) (x.n + 1)) s = g.n + 1
      by_cases hvs : s = v
      · rw [← hvs, fupd_self]
        right
        rw [← hvs] at *
        rcases hDS with hDS | hDS <;> rw [hDS, hxn] <;> omega
      · rw [fupd_ne x.dist _ hvs]
        exact hDS
    · -- sink height
      rw [enqueue_dist]
      show fupd x.dist v (max (x.dist v) (x.n + 1)) t = 0
      rw [fupd_ne x.dist _ (Ne.symm hvt)]
      exact hDT
    · -- height bound
      intro w
      rw [enqueue_dist]
      show fupd x.dist v (max (x.dist v) (x.n + 1)) w ≤ 2 * g.n
      by_cases hwv : w = v
      · rw [hwv, fupd_self]
        have h1 := hDL v
        have h2 := H.hn
        rw [hxn]
        omega
      · rw [fupd_ne x.dist _ hwv]
        exact hDL w
  obtain ⟨-, hQB, hCC, hDS, hDT, hDL⟩ := bundle
  obtain ⟨bS, bT, bND, bsQ, btQ, bLT, bIFF, bPOS⟩ := hQB
  refine ⟨?_, ?_, ?_, H.hst, wf_of_eq hadj hn H.wf, capNN_of_eq hadj H.capNN,
    flowLe_of_eq hadj H.flowLe, flowAnti_of_eq hadj H.flowAnti, ?_,
    exAcct_of_eq hadj hexc H.exAcct, ?_, ?_, hDT, ?_, hCC, bS, bT, bND, bsQ,
    btQ, ?_, bIFF, ?_⟩
  · rw [hn]; exact H.hn
  · rw [hn]; exact H.hs
  · rw [hn]; exact H.ht
  · -- Valid
    intro w j hj hres
    rw [hadj] at hj
    rw [harc] at hres
    obtain ⟨hwn, hton, -, -, -, -⟩ := H.wf w j hj
    have hval := H.valid w j hj hres
    rw [harc, hdist w, hdist (arc g w j).«to»]
    by_cases hcw : k ≤ g.dist w
    · have hcto : k ≤ g.dist (arc g w j).«to» := hcross w j hj hres hcw
      rw [if_pos ⟨hwn, hcw⟩, if_pos ⟨hton, hcto⟩]
      omega
    · rw [if_neg (by rintro ⟨-, hh⟩; exact hcw hh)]
      split
      · omega
      · omega
  · rw [hexc]; exact H.exNN
  · rw [hn]; exact hDS
  · intro v
    rw [hn]
    exact hDL v
  · rw [hn] at bLT ⊢
    exact bLT
  · exact bPOS

/-! Effect of `relabelOp`. -/

/-- New height computed by `relabel(u)`: `2n` lowered to `1 + dist[e.to]` over
the residual outgoing arcs of `u`. -/
def relabelDist (g : PRState) (u : Nat) : Nat :=
  (g.adj u).foldl
    (fun d e => if 0 < e.cap - e.flow then min d (g.dist e.«to» + 1) else d)
    (2 * g.n)

lemma relabelOp_eq (g : PRState) (u : Nat) :
    relabelOp g u = enqueue
      { g with
        count := fupd (fupd g.count (g.dist u) (g.count (g.dist u) - 1))
          (relabelDist g u)
          (fupd g.count (g.dist u) (g.count (g.dist u) - 1) (relabelDist g u) + 1),
        dist := fupd g.dist u (relabelDist g u) } u := rfl

lemma arc_mem (g : PRState) (u j : Nat) (hj : j < (g.adj u).length) :
    arc g u j ∈ g.adj u := by
  rw [arc, List.getD_eq_getElem?_getD, List.getElem?_eq_getElem hj]
  exact List.getElem_mem hj

lemma mem_arc (g : PRState) (u : Nat) {e : Edge} (he : e ∈ g.adj u) :
    ∃ j, j < (g.adj u).length ∧ arc g u j = e := by
  obtain ⟨i, hi, hei⟩ := List.mem_iff_getElem.mp he
  refine ⟨i, hi, ?_⟩
  rw [arc, List.getD_eq_getElem?_getD, List.getElem?_eq_getElem hi, hei]
  rfl

lemma relabel_fold_le_init (g : PRState) :
    ∀ (l : List Edge) (d0 : Nat),
      l.foldl
        (fun d e => if 0 < e.cap - e.flow then min d (g.dist e.«to» + 1) else d)
        d0 ≤ d0 := by
  intro l
  induction l with
  | nil => intro d0; exact le_refl d0
  | cons x xs ih =>
    intro d0
    show xs.foldl _ (if 0 < x.cap - x.flow then min d0 (g.dist x.«to» + 1) else d0) ≤ d0
    refine le_trans (ih _) ?_
    split
    · exact min_le_left _ _
    · exact le_refl d0

lemma relabelDist_le (g : PRState) (u : Nat) : relabelDist g u ≤ 2 * g.n :=
  relabel_fold_le_init g (g.adj u) (2 * g.n)

lemma relabelDist_le_arc (g : PRState) (u : Nat) {e : Edge} (he : e ∈ g.adj u)
    (hres : 0 < e.cap - e.flow) :
    relabelDist g u ≤ g.dist e.«to» + 1 := by
  have aux : ∀ (l : List Edge) (d0 : Nat), e ∈ l →
      l.foldl
        (fun d x => if 0 < x.cap - x.flow then min d (g.dist x.«to» + 1) else d)
        d0 ≤ g.dist e.«to» + 1 := by
    intro l
    induction l with
    | nil => intro d0 h; cases h
    | cons x xs ih =>
      intro d0 hmem
      rcases List.mem_cons.mp hmem with hex | hex
      · subst hex
        show xs.foldl _ (if 0 < e.cap - e.flow then min d0 (g.dist e.«to» + 1) else d0) ≤ _
        rw [if_pos hres]
        exact le_trans (relabel_fold_le_init g xs _) (min_le_right _ _)
      · exact ih _ hex
  exact aux (g.adj u) (2 * g.n) he

lemma relabelDist_ge (g : PRState) (u : Nat) (c : Nat) (hc : c ≤ 2 * g.n)
    (hcand : ∀ e ∈ g.adj u, 0 < e.cap - e.flow → c ≤ g.dist e.«to» + 1) :
    c ≤ relabelDist g u := by
  unfold relabelDist
  have aux : ∀ (l : List Edge) (d0 : Nat), c ≤ d0 →
      (∀ e ∈ l, 0 < e.cap - e.flow → c ≤ g.dist e.«to» + 1) →
      c ≤ l.foldl
        (fun d e => if 0 < e.cap - e.flow then min d (g.dist e.«to» + 1) else d)
        d0 := by
    intro l
    induction l with
    | nil => intro d0 h0 _; exact h0
    | cons x xs ih =>
      intro d0 h0 hl
      show c ≤ xs.foldl _ (if 0 < x.cap - x.flow then min d0 (g.dist x.«to» + 1) else d0)
      refine ih _ ?_ (fun e he hr => hl e (List.mem_cons_of_mem x he) hr)
      split
      · exact le_min h0 (by
          have := hl x (List.mem_cons_self x xs) (by assumption)
          exact this)
      · exact h0
  exact aux (g.adj u) (2 * g.n) hc hcand

lemma relabelOp_inv {s t : Nat} {g : PRState} (u : Nat) (hu : u < g.n)
    (huQ : u ∉ g.Q) (hus : u ≠ s) (hut : u ≠ t)
    (hadm : ∀ j, j < (g.adj u).length → 0 < (arc g u j).cap - (arc g u j).flow →
      g.dist u ≤ g.dist (arc g u j).«to»)
    (H : Inv s t g) : Inv s t (relabelOp g u) := by
  rw [relabelOp_eq]
  set M := relabelDist g u with hM
  set y : PRState :=
    { g with
      count := fupd (fupd g.count (g.dist u) (g.count (g.dist u) - 1)) M
        (fupd g.count (g.dist u) (g.count (g.dist u) - 1) M + 1),
      dist := fupd g.dist u M } with hy
  have hMge : g.dist u ≤ M := by
    rw [hM]
    refine relabelDist_ge g u (g.dist u) (H.distLe u) ?_
    intro e he hres
    obtain ⟨j, hj, hje⟩ := mem_arc g u he
    have := hadm j hj (by rw [hje]; exact hres)
    rw [hje] at this
    omega
  have hInvY : Inv s t y := by
    refine ⟨H.hn, H.hs, H.ht, H.hst, H.wf, H.capNN, H.flowLe, H.flowAnti, ?_,
      H.exAcct, H.exNN, ?_, ?_, ?_, ?_, H.activeS, H.activeT, H.nodup, H.sNotQ,
      H.tNotQ, H.memLt, H.activeIff, H.exPos⟩
    · -- Valid
      intro w j hj hres
      show fupd g.dist u M w ≤ fupd g.dist u M (arc g w j).«to» + 1
      obtain ⟨hwn, hton, htne, -, -, -⟩ := H.wf w j hj
      by_cases hwu : w = u
      · subst hwu
        rw [fupd_self, fupd_ne g.dist _ htne]
        exact relabelDist_le_arc g w (arc_mem g w j hj) hres
      · rw [fupd_ne g.dist _ hwu]
        have hval := H.valid w j hj hres
        by_cases htu : (arc g w j).«to» = u
        · rw [htu, fupd_self]
          rw [htu] at hval
          omega
        · rw [fupd_ne g.dist _ htu]
          exact hval
    · -- source height
      show fupd g.dist u M s = g.n ∨ fupd g.dist u M s = g.n + 1
      rw [fupd_ne g.dist _ (Ne.symm hus)]
      exact H.distS
    · -- sink height
      show fupd g.dist u M t = 0
      rw [fupd_ne g.dist _ (Ne.symm hut)]
      exact H.distT
    · -- height bound
      intro w
      show fupd g.dist u M w ≤ 2 * g.n
      by_cases hwu : w = u
      · rw [hwu, fupd_self, hM]
        exact relabelDist_le g u
      · rw [fupd_ne g.dist _ hwu]
        exact H.distLe w
    · -- histogram consistency
      intro h
      have hHC : heightCount y h =
          heightCount g h - (if g.dist u = h then 1 else 0)
            + (if M = h then 1 else 0) :=
        heightCount_update g u M hu h
      rw [hHC]
      show fupd (fupd g.count (g.dist u) (g.count (g.dist u) - 1)) M
        (fupd g.count (g.dist u) (g.count (g.dist u) - 1) M + 1) h = _
      by_cases hhM : h = M
      · rw [hhM, fupd_self, if_pos rfl]
        by_cases hMd : M = g.dist u
        · rw [hMd, fupd_self, if_pos rfl]
          have e := H.countC (g.dist u)
          omega
        · rw [fupd_ne g.count _ hMd, if_neg (fun hh => hMd hh.symm)]
          have e := H.countC M
          omega
      · rw [fupd_ne _ _ hhM]
        by_cases hhd : h = g.dist u
        · rw [hhd, fupd_self, if_pos rfl,
            if_neg (fun hh : M = g.dist u => hhM (hhd.trans hh.symm))]
          have e := H.countC (g.dist u)
          omega
        · rw [fupd_ne g.count _ hhd, if_neg (fun hh => hhd hh.symm),
            if_neg (fun hh => hhM hh.symm)]
          have e := H.countC h
          omega
  exact enqueue_inv u (show u < y.n from hu) hInvY

/-! Field-preservation lemmas for `pushOp`, and the discharge scan. -/

@[simp] lemma pushOp_dist (g : PRState) (u i : Nat) :
    (pushOp g u i).dist = g.dist := by
  unfold pushOp
  dsimp only
  split
  · rfl
  · simp [enqueue_dist]

@[simp] lemma pushOp_count (g : PRState) (u i : Nat) :
    (pushOp g u i).count = g.count := by
  unfold pushOp
  dsimp only
  split
  · rfl
  · simp [enqueue_count]

@[simp] lemma pushOp_n (g : PRState) (u i : Nat) : (pushOp g u i).n = g.n := by
  unfold pushOp
  dsimp only
  split
  · rfl
  · simp [enqueue_n]

lemma pushOp_adj_length (g : PRState) (u i : Nat) (w : Nat) :
    ((pushOp g u i).adj w).length = (g.adj w).length := by
  unfold pushOp
  dsimp only
  split
  · rfl
  · simp only [enqueue_adj, fupd]
    split_ifs <;> simp_all

lemma enqueue_Q_sub (g : PRState) (v : Nat) :
    ∀ w, w ∈ (enqueue g v).Q → w ∈ g.Q ∨ w = v := by
  intro w hw
  unfold enqueue at hw
  split at hw
  · have : w ∈ g.Q ++ [v] := hw
    rw [List.mem_append, List.mem_singleton] at this
    exact this
  · exact Or.inl hw

lemma pushOp_Q_sub (g : PRState) (u i : Nat) :
    ∀ w, w ∈ (pushOp g u i).Q → w ∈ g.Q ∨ w = (arc g u i).«to» := by
  intro w hw
  unfold pushOp at hw
  dsimp only at hw
  split at hw
  · exact Or.inl hw
  · rcases enqueue_Q_sub _ _ w hw with h | h
    · exact Or.inl h
    · exact Or.inr h

lemma pushOp_arc_ne (g : PRState) (u i : Nat) (hi : i < (g.adj u).length)
    (hne : (arc g u i).«to» ≠ u) (i' : Nat) (hii : i' ≠ i) :
    arc (pushOp g u i) u i' = arc g u i' := by
  by_cases hact : g.dist u ≤ g.dist (arc g u i).«to» ∨ amtOf g u i = 0
  · rw [pushOp_of_neg g u i hact]
  · rw [pushOp_of_act g u i hact hne]
    rw [arc, enqueue_adj]
    show (fupd (fupd g.adj u _) (arc g u i).«to» _ u).getD i' default = _
    rw [fupd_ne _ _ (Ne.symm hne), fupd_self,
      getD_set_ne _ _ (fun h => hii h.symm)]
    rfl

lemma pushOp_excess_u (g : PRState) (u i : Nat)
    (hne : (arc g u i).«to» ≠ u) :
    (pushOp g u i).excess u = g.excess u ∨
      ((pushOp g u i).excess u = g.excess u - amtOf g u i ∧
        ¬(g.dist u ≤ g.dist (arc g u i).«to» ∨ amtOf g u i = 0)) := by
  by_cases hact : g.dist u ≤ g.dist (arc g u i).«to» ∨ amtOf g u i = 0
  · left; rw [pushOp_of_neg g u i hact]
  · right
    refine ⟨?_, hact⟩
    rw [pushOp_of_act g u i hact hne]
    rw [enqueue_excess]
    show fupd (fupd g.excess u _) (arc g u i).«to» _ u = _
    rw [fupd_ne _ _ (Ne.symm hne), fupd_self]

/-- Bundled facts about the discharge scan, proved together by induction over
the scanned index list. -/
lemma scan_bundle {s t u : Nat} :
    ∀ (l : List Nat) (x : PRState), Inv s t x → u ∉ x.Q →
      (∀ i ∈ l, i < (x.adj u).length) →
      Inv s t (l.foldl (fun y i => if 0 < y.excess u then pushOp y u i else y) x) ∧
      u ∉ (l.foldl (fun y i => if 0 < y.excess u then pushOp y u i else y) x).Q ∧
      (l.foldl (fun y i => if 0 < y.excess u then pushOp y u i else y) x).dist = x.dist ∧
      (l.foldl (fun y i => if 0 < y.excess u then pushOp y u i else y) x).count = x.count ∧
      (l.foldl (fun y i => if 0 < y.excess u then pushOp y u i else y) x).n = x.n ∧
      (∀ w, ((l.foldl (fun y i => if 0 < y.excess u then pushOp y u i else y) x).adj w).length
        = (x.adj w).length) ∧
      (l.foldl (fun y i => if 0 < y.excess u then pushOp y u i else y) x).excess u
        ≤ x.excess u ∧
      (∀ i', i' ∉ l →
        arc (l.foldl (fun y i => if 0 < y.excess u then pushOp y u i else y) x) u i'
          = arc x u i') := by
  intro l
  induction l with
  | nil =>
    intro x hI hQ _
    exact ⟨hI, hQ, rfl, rfl, rfl, fun _ => rfl, le_refl _, fun _ _ => rfl⟩
  | cons i l' ih =>
    intro x hI hQ hlen
    have hi : i < (x.adj u).length := hlen i (List.mem_cons_self i l')
    set x1 := if 0 < x.excess u then pushOp x u i else x with hx1
    have step_facts : Inv s t x1 ∧ u ∉ x1.Q ∧ x1.dist = x.dist ∧
        x1.count = x.count ∧ x1.n = x.n ∧
        (∀ w, ((x1.adj w).length = (x.adj w).length)) ∧
        x1.excess u ≤ x.excess u ∧
        (∀ i', i' ≠ i → arc x1 u i' = arc x u i') := by
      rw [hx1]
      by_cases hex : 0 < x.excess u
      · rw [if_pos hex]
        obtain ⟨-, -, hne, -, -, -⟩ := hI.wf u i hi
        have hexle : (pushOp x u i).excess u ≤ x.excess u := by
          rcases pushOp_excess_u x u i hne with h | ⟨h, hcnd⟩
          · rw [h]
          · rw [h]
            have h1 : 0 ≤ amtOf x u i := by
              refine le_min (hI.exNN u) ?_
              have := hI.flowLe u i hi
              omega
            omega
        refine ⟨pushOp_inv u i hi hQ hI, ?_, pushOp_dist x u i,
          pushOp_count x u i, pushOp_n x u i, pushOp_adj_length x u i,
          hexle, fun i' hii => pushOp_arc_ne x u i hi hne i' hii⟩
        intro hmem
        rcases pushOp_Q_sub x u i u hmem with h | h
        · exact hQ h
        · exact hne h.symm
      · rw [if_neg hex]
        exact ⟨hI, hQ, rfl, rfl, rfl, fun _ => rfl, le_refl _, fun _ _ => rfl⟩
    obtain ⟨f1, f2, f3, f4, f5, f6, f7, f8⟩ := step_facts
    have hlen' : ∀ j ∈ l', j < (x1.adj u).length := by
      intro j hj
      rw [f6 u]
      exact hlen j (List.mem_cons_of_mem i hj)
    obtain ⟨g1, g2, g3, g4, g5, g6, g7, g8⟩ := ih x1 f1 f2 hlen'
    refine ⟨g1, g2, g3.trans f3, g4.trans f4, g5.trans f5,
      fun w => (g6 w).trans (f6 w), le_trans g7 f7, ?_⟩
    intro i' hi'
    rw [List.mem_cons] at hi'
    push_neg at hi'
    show arc (List.foldl (fun y i => if 0 < y.excess u then pushOp y u i else y)
      x1 l') u i' = arc x u i'
    rw [g8 i' hi'.2, f8 i' hi'.1]

/-- The discharge scan as a function of the remaining index list. -/
def scanF (u : Nat) (x : PRState) (l : List Nat) : PRState :=
  l.foldl (fun y i => if 0 < y.excess u then pushOp y u i else y) x

lemma dischargeScan_eq_scanF (g : PRState) (u : Nat) :
    dischargeScan g u = scanF u g (List.range (g.adj u).length) := rfl

lemma scanF_bundle {s t u : Nat} (l : List Nat) (x : PRState) (hI : Inv s t x)
    (hQ : u ∉ x.Q) (hlen : ∀ i ∈ l, i < (x.adj u).length) :
    Inv s t (scanF u x l) ∧ u ∉ (scanF u x l).Q ∧
      (scanF u x l).dist = x.dist ∧ (scanF u x l).count = x.count ∧
      (scanF u x l).n = x.n ∧
      (∀ w, ((scanF u x l).adj w).length = (x.adj w).length) ∧
      (scanF u x l).excess u ≤ x.excess u ∧
      (∀ i', i' ∉ l → arc (scanF u x l) u i' = arc x u i') :=
  scan_bundle l x hI hQ hlen

/-- After the discharge scan, if the vertex still holds excess then every one
of its arcs is either non-admissible or has no residual capacity left. -/
lemma scan_dead {s t u : Nat} :
    ∀ (l : List Nat) (x : PRState), Inv s t x → u ∉ x.Q → l.Nodup →
      (∀ i ∈ l, i < (x.adj u).length) →
      0 < (scanF u x l).excess u →
      ∀ i ∈ l,
        (scanF u x l).dist u ≤ (scanF u x l).dist (arc (scanF u x l) u i).«to» ∨
        (arc (scanF u x l) u i).cap - (arc (scanF u x l) u i).flow ≤ 0 := by
  intro l
  induction l with
  | nil => intro x _ _ _ _ _ i hi; cases hi
  | cons i0 l' ih =>
    intro x hI hQ hnd hlen hex i hi
    have hi0 : i0 < (x.adj u).length := hlen i0 (List.mem_cons_self i0 l')
    have hndl' : l'.Nodup := (List.nodup_cons.mp hnd).2
    have hi0notl' : i0 ∉ l' := (List.nodup_cons.mp hnd).1
    set x1 : PRState := if 0 < x.excess u then pushOp x u i0 else x with hx1
    obtain ⟨s1, s2, -, -, -, s6, s7, -⟩ :=
      scanF_bundle [i0] x hI hQ
        (by intro j hj; rw [List.mem_singleton] at hj; exact hj ▸ hi0)
    have hs1 : Inv s t x1 := s1
    have hs2 : u ∉ x1.Q := s2
    have hs7 : x1.excess u ≤ x.excess u := s7
    have hlen1 : (x1.adj u).length = (x.adj u).length := s6 u
    have hlen' : ∀ j ∈ l', j < (x1.adj u).length := by
      intro j hj
      rw [hlen1]
      exact hlen j (List.mem_cons_of_mem i0 hj)
    have hfineq : scanF u x (i0 :: l') = scanF u x1 l' := rfl
    rw [hfineq] at hex ⊢
    obtain ⟨-, -, b3, -, -, -, b7, b8⟩ := scanF_bundle l' x1 hs1 hs2 hlen'
    rw [List.mem_cons] at hi
    rcases hi with hii0 | hil'
    · subst hii0
      rw [b3, b8 i hi0notl']
      by_cases hex0 : 0 < x.excess u
      · have hx1p : x1 = pushOp x u i := by rw [hx1, if_pos hex0]
        obtain ⟨-, -, hne, -, -, -⟩ := hI.wf u i hi0
        by_cases hact : x.dist u ≤ x.dist (arc x u i).«to» ∨ amtOf x u i = 0
        · have hx1x : x1 = x := by rw [hx1p, pushOp_of_neg x u i hact]
          rcases hact with hd | ha
          · left; rw [hx1x]; exact hd
          · right
            rw [hx1x]
            by_contra hres
            push_neg at hres
            have hlt : 0 < min (x.excess u) ((arc x u i).cap - (arc x u i).flow) :=
              lt_min hex0 hres
            have hA : amtOf x u i =
                min (x.excess u) ((arc x u i).cap - (arc x u i).flow) := rfl
            rw [hA] at ha
            omega
        · have hx1e : x1.excess u = x.excess u - amtOf x u i := by
            rw [hx1p, pushOp_of_act x u i hact hne, enqueue_excess]
            show fupd (fupd x.excess u _) (arc x u i).«to» _ u = _
            rw [fupd_ne _ _ (Ne.symm hne), fupd_self]
          have harc1 : arc x1 u i =
              { arc x u i with flow := (arc x u i).flow + amtOf x u i } := by
            rw [hx1p, pushOp_of_act x u i hact hne, arc, enqueue_adj]
            show (fupd (fupd x.adj u ((x.adj u).set i _))
              (arc x u i).«to» _ u).getD i default = _
            rw [fupd_ne _ _ (Ne.symm hne), fupd_self, getD_set_self _ _ _ hi0]
          have hres_after : (arc x1 u i).cap - (arc x1 u i).flow =
              ((arc x u i).cap - (arc x u i).flow) - amtOf x u i := by
            rw [harc1]
            show (arc x u i).cap - ((arc x u i).flow + amtOf x u i) = _
            ring
          by_cases hge : (arc x u i).cap - (arc x u i).flow ≤ amtOf x u i
          · right
            rw [hres_after]
            omega
          · exfalso
            push_neg at hge
            have hA : amtOf x u i =
                min (x.excess u) ((arc x u i).cap - (arc x u i).flow) := rfl
            rcases min_choice (x.excess u) ((arc x u i).cap - (arc x u i).flow)
              with hmc | hmc
            · have hzero : x1.excess u = 0 := by
                rw [hx1e, hA, hmc]
                ring
              omega
            · rw [hA, hmc] at hge
              omega
      · exfalso
        have hx1x : x1 = x := by rw [hx1, if_neg hex0]
        have hxe : x1.excess u = x.excess u := by rw [hx1x]
        omega
    · exact ih x1 hs1 hs2 hndl' hlen' hex i hil'

lemma heightCount_unique {g : PRState} {k : Nat} (hcc : heightCount g k = 1) :
    ∀ a b, a < g.n → b < g.n → g.dist a = k → g.dist b = k → a = b := by
  intro a b ha hb hda hdb
  by_contra hne
  have h2 : (2 : Int) ≤ heightCount g k := by
    unfold heightCount
    have hsub : ({a, b} : Finset Nat) ⊆ Finset.range g.n := by
      intro w hw
      rcases Finset.mem_insert.mp hw with hw | hw
      · subst hw; exact Finset.mem_range.mpr ha
      · rw [Finset.mem_singleton] at hw; subst hw; exact Finset.mem_range.mpr hb
    have hpair : (∑ v ∈ ({a, b} : Finset Nat),
        if g.dist v = k then (1 : Int) else 0) = 2 := by
      rw [Finset.sum_pair hne, if_pos hda, if_pos hdb]
      norm_num
    rw [← hpair]
    refine Finset.sum_le_sum_of_subset_of_nonneg hsub ?_
    intro w _ _
    split <;> omega
  omega

/-- The discharge of a popped vertex preserves the invariant. -/
lemma discharge_inv {s t : Nat} {g : PRState} (u : Nat) (hu : u < g.n)
    (huQ : u ∉ g.Q) (hus : u ≠ s) (hut : u ≠ t) (H : Inv s t g) :
    Inv s t (discharge g u) := by
  have hrange : ∀ i ∈ List.range (g.adj u).length, i < (g.adj u).length :=
    fun i hi => List.mem_range.mp hi
  obtain ⟨F1, F2, F3, -, F5, F6, -, -⟩ :=
    scanF_bundle (List.range (g.adj u).length) g H huQ hrange
  set F := scanF u g (List.range (g.adj u).length) with hF
  have hdis : discharge g u =
      if 0 < F.excess u then
        (if F.count (F.dist u) = 1 then gapOp F (F.dist u) else relabelOp F u)
      else F := rfl
  rw [hdis]
  by_cases hex : 0 < F.excess u
  · rw [if_pos hex]
    have hdead := scan_dead (List.range (g.adj u).length) g H huQ
      (List.nodup_range _) hrange hex
    rw [← hF] at hdead
    by_cases hcnt : F.count (F.dist u) = 1
    · rw [if_pos hcnt]
      have hk : 1 ≤ F.dist u := by
        by_contra hk0
        push_neg at hk0
        have hdu : F.dist u = 0 := by omega
        rw [hdu] at hcnt
        have hhc : heightCount F 0 = 1 := by
          rw [← F1.countC 0]
          exact hcnt
        have hFt : F.dist t = 0 := by rw [F3]; exact H.distT
        have heq := heightCount_unique hhc u t (by rw [F5]; exact hu)
          (by rw [F5]; exact H.ht) hdu hFt
        exact hut heq
      have hcross : ∀ w j, j < (F.adj w).length →
          0 < (arc F w j).cap - (arc F w j).flow →
          F.dist u ≤ F.dist w → F.dist u ≤ F.dist (arc F w j).«to» := by
        intro w j hj hres hw
        by_contra hlt
        push_neg at hlt
        have hval := F1.valid w j hj hres
        have hwu : F.dist w = F.dist u := by omega
        obtain ⟨hwn, -, -, -, -, -⟩ := F1.wf w j hj
        have hwequ : w = u := heightCount_unique
          (by rw [← F1.countC]; exact hcnt) w u hwn (by rw [F5]; exact hu)
          hwu rfl
        rw [hwequ] at hj hres hlt
        have hjg : j < (g.adj u).length := by rw [← F6 u]; exact hj
        rcases hdead j (List.mem_range.mpr hjg) with hD | hD
        · omega
        · omega
      exact gapOp_inv hk hcross F1
    · rw [if_neg hcnt]
      refine relabelOp_inv u ?_ F2 hus hut ?_ F1
      · show u < F.n
        rw [F5]
        exact hu
      · intro j hj hres
        have hjg : j < (g.adj u).length := by rw [← F6 u]; exact hj
        rcases hdead j (List.mem_range.mpr hjg) with hD | hD
        · exact hD
        · omega
  · rw [if_neg hex]
    exact F1

/-- One iteration of the main loop preserves the invariant. -/
lemma loopStep_inv {s t : Nat} {g : PRState} (H : Inv s t g) :
    Inv s t (loopStep s t g) := by
  rcases hQeq : g.Q with - | ⟨u, rest⟩
  · have hstep : loopStep s t g = g := by
      unfold loopStep
      rw [hQeq]
    rw [hstep]
    exact H
  · have huQ : u ∈ g.Q := by rw [hQeq]; exact List.mem_cons_self u rest
    have hus : u ≠ s := fun h => H.sNotQ (h ▸ huQ)
    have hut : u ≠ t := fun h => H.tNotQ (h ▸ huQ)
    have hu : u < g.n := H.memLt u huQ
    have hnd : (u :: rest).Nodup := hQeq ▸ H.nodup
    have hurest : u ∉ rest := (List.nodup_cons.mp hnd).1
    have hstep : loopStep s t g =
        discharge { g with Q := rest, active := fupd g.active u false } u := by
      unfold loopStep
      rw [hQeq]
      dsimp only
      rw [if_neg (by rintro (h | h); exacts [hus h, hut h])]
    rw [hstep]
    have hInv1 : Inv s t { g with Q := rest, active := fupd g.active u false } := by
      refine ⟨H.hn, H.hs, H.ht, H.hst, H.wf, H.capNN, H.flowLe, H.flowAnti,
        H.valid, H.exAcct, H.exNN, H.distS, H.distT, H.distLe, H.countC,
        ?_, ?_, ?_, ?_, ?_, ?_, ?_, ?_⟩
      · show fupd g.active u false s = true
        rw [fupd_ne g.active _ (Ne.symm hus)]
        exact H.activeS
      · show fupd g.active u false t = true
        rw [fupd_ne g.active _ (Ne.symm hut)]
        exact H.activeT
      · exact (List.nodup_cons.mp hnd).2
      · show s ∉ rest
        intro h
        exact H.sNotQ (by rw [hQeq]; exact List.mem_cons_of_mem u h)
      · show t ∉ rest
        intro h
        exact H.tNotQ (by rw [hQeq]; exact List.mem_cons_of_mem u h)
      · intro w hw
        exact H.memLt w (by rw [hQeq]; exact List.mem_cons_of_mem u hw)
      · intro w hws hwt
        show fupd g.active u false w = true ↔ w ∈ rest
        by_cases hwu : w = u
        · subst hwu
          rw [fupd_self]
          constructor
          · intro h; cases h
          · intro h; exact absurd h hurest
        · rw [fupd_ne g.active _ hwu, H.activeIff w hws hwt, hQeq,
            List.mem_cons]
          constructor
          · rintro (h | h); exacts [absurd h hwu, h]
          · intro h; exact Or.inr h
      · intro w hw
        exact H.exPos w (by rw [hQeq]; exact List.mem_cons_of_mem u hw)
    exact discharge_inv u hu hurest hus hut hInv1

/-- The main loop transports the invariant to its result. -/
lemma loop_inv {s t : Nat} :
    ∀ (fuel : Nat) (g g' : PRState), loop s t fuel g = some g' →
      Inv s t g → Inv s t g' := by
  intro fuel
  induction fuel with
  | zero =>
    intro g g' h hI
    unfold loop at h
    split at h
    · cases h; exact hI
    · cases h
  | succ m ih =>
    intro g g' h hI
    unfold loop at h
    split at h
    · cases h; exact hI
    · exact ih _ _ h (loopStep_inv hI)

/-- Preservation of the structural and queue components by `pushOp`, without
any height hypothesis (used during preflow initialisation, when height
validity does not yet hold). -/
lemma pushOp_bundle {s t : Nat} {g : PRState} (u i : Nat)
    (hi : i < (g.adj u).length) (huQ : u ∉ g.Q) (hwf : WF g)
    (hcap : CapNonneg g) (hfl : FlowLe g) (hfa : FlowAnti g)
    (hea : ExAcct s g) (hnn : ∀ v, 0 ≤ g.excess v) (hqb : QBundle s t g) :
    WF (pushOp g u i) ∧ CapNonneg (pushOp g u i) ∧ FlowLe (pushOp g u i) ∧
      FlowAnti (pushOp g u i) ∧ ExAcct s (pushOp g u i) ∧
      (∀ v, 0 ≤ (pushOp g u i).excess v) ∧ QBundle s t (pushOp g u i) := by
  by_cases hact : g.dist u ≤ g.dist (arc g u i).«to» ∨ amtOf g u i = 0
  · rw [pushOp_of_neg g u i hact]
    exact ⟨hwf, hcap, hfl, hfa, hea, hnn, hqb⟩
  obtain ⟨hun, hton, htne, hrevlt, hpto, hprev⟩ := hwf u i hi
  rw [not_or] at hact
  obtain ⟨hdle, hamt0⟩ := hact
  have hune : u ≠ (arc g u i).«to» := Ne.symm htne
  rw [pushOp_of_act g u i (by rw [not_or]; exact ⟨hdle, hamt0⟩) htne]
  set E := arc g u i with hE
  set P := arc g E.«to» E.rev with hP
  set amt := amtOf g u i with hamt
  set G : PRState :=
    { g with
      adj := fupd (fupd g.adj u ((g.adj u).set i { E with flow := E.flow + amt }))
        E.«to» ((g.adj E.«to»).set E.rev { P with flow := P.flow - amt }),
      excess := fupd (fupd g.excess u (g.excess u - amt)) E.«to»
        (g.excess E.«to» + amt) } with hG
  have hamt_le_exc : amt ≤ g.excess u := min_le_left _ _
  have hamt_le_res : amt ≤ E.cap - E.flow := min_le_right _ _
  have hres_nn : 0 ≤ E.cap - E.flow := sub_nonneg.mpr (hfl u i hi)
  have hamt_nn : 0 ≤ amt := le_min (hnn u) hres_nn
  have hPflow : P.flow = -E.flow := hfa u i hi
  have hadj_to : G.adj E.«to» = (g.adj E.«to»).set E.rev { P with flow := P.flow - amt } :=
    fupd_self _ _ _
  have hadj_u : G.adj u = (g.adj u).set i { E with flow := E.flow + amt } := by
    show fupd _ E.«to» _ u = _
    rw [fupd_ne _ _ hune, fupd_self]
  have hadj_other : ∀ w, w ≠ u → w ≠ E.«to» → G.adj w = g.adj w := by
    intro w h1 h2
    show fupd _ E.«to» _ w = _
    rw [fupd_ne _ _ h2, fupd_ne _ _ h1]
  have hlen : ∀ w, (G.adj w).length = (g.adj w).length := by
    intro w
    by_cases h1 : w = u
    · subst h1; rw [hadj_u, List.length_set]
    by_cases h2 : w = E.«to»
    · subst h2; rw [hadj_to, List.length_set]
    · rw [hadj_other w h1 h2]
  have harc_ui : arc G u i = { E with flow := E.flow + amt } := by
    rw [arc, hadj_u]; exact getD_set_self _ _ _ hi
  have harc_pair : arc G E.«to» E.rev = { P with flow := P.flow - amt } := by
    rw [arc, hadj_to]; exact getD_set_self _ _ _ hrevlt
  have harc_other : ∀ w j, ¬(w = u ∧ j = i) → ¬(w = E.«to» ∧ j = E.rev) →
      arc G w j = arc g w j := by
    intro w j h1 h2
    by_cases hw1 : w = u
    · subst hw1
      have hji : i ≠ j := fun h => h1 ⟨rfl, h.symm⟩
      rw [arc, hadj_u, getD_set_ne _ _ hji]; rfl
    by_cases hw2 : w = E.«to»
    · subst hw2
      have hji : E.rev ≠ j := fun h => h2 ⟨rfl, h.symm⟩
      rw [arc, hadj_to, getD_set_ne _ _ hji]; rfl
    · rw [arc, hadj_other w hw1 hw2]; rfl
  have hstat : ∀ w j, (arc G w j).«to» = (arc g w j).«to» ∧
      (arc G w j).rev = (arc g w j).rev ∧ (arc G w j).cap = (arc g w j).cap := by
    intro w j
    by_cases h1 : w = u ∧ j = i
    · obtain ⟨rfl, rfl⟩ := h1
      rw [harc_ui]; exact ⟨rfl, rfl, rfl⟩
    by_cases h2 : w = E.«to» ∧ j = E.rev
    · obtain ⟨rfl, rfl⟩ := h2
      rw [harc_pair]; exact ⟨rfl, rfl, rfl⟩
    · rw [harc_other w j h1 h2]; exact ⟨rfl, rfl, rfl⟩
  have huniq1 : ∀ w j, j < (g.adj w).length → (arc g w j).«to» = u →
      (arc g w j).rev = i → w = E.«to» ∧ j = E.rev := by
    intro w j hj h1 h2
    obtain ⟨-, -, -, -, hp1, hp2⟩ := hwf w j hj
    rw [h1, h2] at hp1 hp2
    exact ⟨hp1.symm, hp2.symm⟩
  have huniq2 : ∀ w j, j < (g.adj w).length → (arc g w j).«to» = E.«to» →
      (arc g w j).rev = E.rev → w = u ∧ j = i := by
    intro w j hj h1 h2
    obtain ⟨-, -, -, -, hp1, hp2⟩ := hwf w j hj
    rw [h1, h2] at hp1 hp2
    rw [← hP] at hp1 hp2
    rw [hpto] at hp1
    rw [hprev] at hp2
    exact ⟨hp1.symm, hp2.symm⟩
  have hex_u : G.excess u = g.excess u - amt := by
    show fupd _ E.«to» _ u = _
    rw [fupd_ne _ _ hune, fupd_self]
  have hex_to : G.excess E.«to» = g.excess E.«to» + amt := fupd_self _ _ _
  have hex_other : ∀ v, v ≠ u → v ≠ E.«to» → G.excess v = g.excess v := by
    intro v h1 h2
    show fupd _ E.«to» _ v = _
    rw [fupd_ne _ _ h2, fupd_ne _ _ h1]
  have hbundleG : WF G ∧ CapNonneg G ∧ FlowLe G ∧ FlowAnti G ∧ ExAcct s G ∧
      (∀ v, 0 ≤ G.excess v) ∧ QBundle s t G := by
    refine ⟨?_, ?_, ?_, ?_, ?_, ?_, ?_⟩
    · intro w j hj
      rw [hlen] at hj
      obtain ⟨k1, k2, k3, k4, k5, k6⟩ := hwf w j hj
      obtain ⟨s1, s2, -⟩ := hstat w j
      refine ⟨k1, ?_, ?_, ?_, ?_, ?_⟩
      · rw [s1]; exact k2
      · rw [s1]; exact k3
      · rw [s1, s2, hlen]; exact k4
      · rw [s1, s2]
        obtain ⟨t1, -, -⟩ := hstat (arc g w j).«to» (arc g w j).rev
        rw [t1]; exact k5
      · rw [s1, s2]
        obtain ⟨-, t2, -⟩ := hstat (arc g w j).«to» (arc g w j).rev
        rw [t2]; exact k6
    · intro w j hj
      rw [hlen] at hj
      obtain ⟨-, -, s3⟩ := hstat w j
      rw [s3]; exact hcap w j hj
    · intro w j hj
      rw [hlen] at hj
      by_cases h1 : w = u ∧ j = i
      · obtain ⟨rfl, rfl⟩ := h1
        rw [harc_ui]
        show E.flow + amt ≤ E.cap
        omega
      by_cases h2 : w = E.«to» ∧ j = E.rev
      · obtain ⟨rfl, rfl⟩ := h2
        rw [harc_pair]
        show P.flow - amt ≤ P.cap
        have := hfl E.«to» E.rev hrevlt
        rw [← hP] at this
        omega
      · rw [harc_other w j h1 h2]; exact hfl w j hj
    · intro w j hj
      rw [hlen] at hj
      by_cases h1 : w = u ∧ j = i
      · obtain ⟨rfl, rfl⟩ := h1
        rw [harc_ui]
        show (arc G E.«to» E.rev).flow = -(E.flow + amt)
        rw [harc_pair]
        show P.flow - amt = -(E.flow + amt)
        rw [hPflow]; ring
      by_cases h2 : w = E.«to» ∧ j = E.rev
      · obtain ⟨rfl, rfl⟩ := h2
        rw [harc_pair]
        show (arc G P.«to» P.rev).flow = -(P.flow - amt)
        rw [hpto, hprev, harc_ui]
        show E.flow + amt = -(P.flow - amt)
        rw [hPflow]; ring
      · rw [harc_other w j h1 h2]
        have hq1 : ¬((arc g w j).«to» = u ∧ (arc g w j).rev = i) := by
          rintro ⟨q1, q2⟩
          exact h2 (huniq1 w j hj q1 q2)
        have hq2 : ¬((arc g w j).«to» = E.«to» ∧ (arc g w j).rev = E.rev) := by
          rintro ⟨q1, q2⟩
          exact h1 (huniq2 w j hj q1 q2)
        rw [harc_other _ _ hq1 hq2]
        exact hfa w j hj
    · intro v hvs
      by_cases hv1 : v = u
      · subst hv1
        rw [hex_u, hadj_u, sumFlow_set _ _ _ hi]
        have := hea v hvs
        rw [← hE] at *
        show g.excess v - amt = -(sumFlow (g.adj v) - E.flow + (E.flow + amt))
        omega
      by_cases hv2 : v = E.«to»
      · subst hv2
        rw [hex_to, hadj_to, sumFlow_set _ _ _ hrevlt]
        have := hea E.«to» hvs
        rw [← hP] at *
        show g.excess E.«to» + amt = -(sumFlow (g.adj E.«to») - P.flow + (P.flow - amt))
        omega
      · rw [hex_other v hv1 hv2, hadj_other v hv1 hv2]
        exact hea v hvs
    · intro v
      by_cases hv1 : v = u
      · subst hv1; rw [hex_u]; omega
      by_cases hv2 : v = E.«to»
      · subst hv2; rw [hex_to]
        have := hnn E.«to»
        omega
      · rw [hex_other v hv1 hv2]; exact hnn v
    · obtain ⟨qS, qT, qND, qsQ, qtQ, qLT, qIFF, qPOS⟩ := hqb
      refine ⟨qS, qT, qND, qsQ, qtQ, qLT, qIFF, ?_⟩
      intro v hv
      by_cases hv2 : v = E.«to»
      · subst hv2; rw [hex_to]
        have := qPOS E.«to» hv
        omega
      · have hv1 : v ≠ u := fun h => huQ (h ▸ hv)
        rw [hex_other v hv1 hv2]
        exact qPOS v hv
  obtain ⟨b1, b2, b3, b4, b5, b6, b7⟩ := hbundleG
  have hqb' : QBundle s t (enqueue G E.«to») :=
    enqueue_qbundle E.«to» (show E.«to» < G.n from hton) b7
  refine ⟨?_, ?_, ?_, ?_, ?_, ?_, hqb'⟩
  · exact wf_of_eq (enqueue_adj G E.«to») (enqueue_n G E.«to») b1
  · exact capNN_of_eq (enqueue_adj G E.«to») b2
  · exact flowLe_of_eq (enqueue_adj G E.«to») b3
  · exact flowAnti_of_eq (enqueue_adj G E.«to») b4
  · exact exAcct_of_eq (enqueue_adj G E.«to») (enqueue_excess G E.«to») b5
  · intro v
    rw [enqueue_excess]
    exact b6 v

/-! Properties of graphs built through `addEdge`. -/

/-- Edge-list well-formedness: endpoints in range, nonnegative capacities. -/
def edgesOk (n : Nat) (es : List (Nat × Nat × Int)) : Prop :=
  ∀ e ∈ es, e.1 < n ∧ e.2.1 < n ∧ 0 ≤ e.2.2

instance (n : Nat) (es : List (Nat × Nat × Int)) : Decidable (edgesOk n es) := by
  unfold edgesOk
  infer_instance

lemma addEdge_props {n : Nat} {g : PRState} (u v : Nat) (cap : Int)
    (hgn : g.n = n) (hun : u < n) (hvn : v < n) (hcap : 0 ≤ cap)
    (hwf : WF g) (hcap0 : CapNonneg g)
    (hfz : ∀ w j, j < (g.adj w).length → (arc g w j).flow = 0) :
    (addEdge g u v cap).n = n ∧ WF (addEdge g u v cap) ∧
      CapNonneg (addEdge g u v cap) ∧
      (∀ w j, j < ((addEdge g u v cap).adj w).length →
        (arc (addEdge g u v cap) w j).flow = 0) ∧
      (addEdge g u v cap).excess = g.excess ∧
      (addEdge g u v cap).dist = g.dist ∧
      (addEdge g u v cap).count = g.count ∧
      (addEdge g u v cap).active = g.active ∧
      (addEdge g u v cap).Q = g.Q := by
  by_cases huv : u = v
  · rw [addEdge, if_pos huv]
    exact ⟨hgn, hwf, hcap0, hfz, rfl, rfl, rfl, rfl, rfl⟩
  rw [addEdge, if_neg huv]
  set F : Edge := ⟨v, (g.adj v).length, 0, cap⟩ with hF
  set B : Edge := ⟨u, (g.adj u).length, 0, 0⟩ with hB
  set A1 : Nat → List Edge := fupd g.adj u (g.adj u ++ [F]) with hA1
  have hGdef : add_edge_internal g u v cap =
      { g with adj := fupd A1 v (A1 v ++ [B]) } := rfl
  rw [hGdef]
  set G : PRState := { g with adj := fupd A1 v (A1 v ++ [B]) } with hG
  have hvu : v ≠ u := Ne.symm huv
  have ha_u : G.adj u = g.adj u ++ [F] := by
    show fupd A1 v (A1 v ++ [B]) u = _
    rw [fupd_ne _ _ huv, hA1, fupd_self]
  have ha_v : G.adj v = g.adj v ++ [B] := by
    show fupd A1 v (A1 v ++ [B]) v = _
    rw [fupd_self, hA1, fupd_ne _ _ hvu]
  have ha_o : ∀ w, w ≠ u → w ≠ v → G.adj w = g.adj w := by
    intro w h1 h2
    show fupd A1 v (A1 v ++ [B]) w = _
    rw [fupd_ne _ _ h2, hA1, fupd_ne _ _ h1]
  have hlen_u : (G.adj u).length = (g.adj u).length + 1 := by
    rw [ha_u, List.length_append, List.length_singleton]
  have hlen_v : (G.adj v).length = (g.adj v).length + 1 := by
    rw [ha_v, List.length_append, List.length_singleton]
  have hlen_ge : ∀ w, (g.adj w).length ≤ (G.adj w).length := by
    intro w
    by_cases h1 : w = u
    · subst h1; omega
    by_cases h2 : w = v
    · subst h2; omega
    · rw [ha_o w h1 h2]
  have harc_old : ∀ w j, j < (g.adj w).length → arc G w j = arc g w j := by
    intro w j hj
    by_cases h1 : w = u
    · subst h1
      rw [arc, ha_u, getD_append_left _ _ _ hj]; rfl
    by_cases h2 : w = v
    · subst h2
      rw [arc, ha_v, getD_append_left _ _ _ hj]; rfl
    · rw [arc, ha_o w h1 h2]; rfl
  have harc_newF : arc G u (g.adj u).length = F := by
    rw [arc, ha_u]
    exact getD_append_self _ _
  have harc_newB : arc G v (g.adj v).length = B := by
    rw [arc, ha_v]
    exact getD_append_self _ _
  have hwfG : WF G := by
    intro w j hj
    by_cases h1 : w = u
    · subst h1
      rw [hlen_u] at hj
      rcases Nat.lt_succ_iff_lt_or_eq.mp hj with hj | hj
      · obtain ⟨k1, k2, k3, k4, k5, k6⟩ := hwf w j hj
        rw [harc_old w j hj]
        refine ⟨k1, k2, k3, Nat.lt_of_lt_of_le k4 (hlen_ge _), ?_, ?_⟩
        · rw [harc_old _ _ k4]; exact k5
        · rw [harc_old _ _ k4]; exact k6
      · subst hj
        rw [harc_newF]
        refine ⟨hgn ▸ hun, hgn ▸ hvn, hvu, ?_, ?_, ?_⟩
        · show (g.adj v).length < (G.adj v).length
          omega
        · rw [show F.rev = (g.adj v).length from rfl, show F.«to» = v from rfl,
            harc_newB]
        · rw [show F.rev = (g.adj v).length from rfl, show F.«to» = v from rfl,
            harc_newB]
    by_cases h2 : w = v
    · subst h2
      rw [hlen_v] at hj
      rcases Nat.lt_succ_iff_lt_or_eq.mp hj with hj | hj
      · obtain ⟨k1, k2, k3, k4, k5, k6⟩ := hwf w j hj
        rw [harc_old w j hj]
        refine ⟨k1, k2, k3, Nat.lt_of_lt_of_le k4 (hlen_ge _), ?_, ?_⟩
        · rw [harc_old _ _ k4]; exact k5
        · rw [harc_old _ _ k4]; exact k6
      · subst hj
        rw [harc_newB]
        refine ⟨hgn ▸ hvn, hgn ▸ hun, huv, ?_, ?_, ?_⟩
        · show (g.adj u).length < (G.adj u).length
          omega
        · rw [show B.rev = (g.adj u).length from rfl, show B.«to» = u from rfl,
            harc_newF]
        · rw [show B.rev = (g.adj u).length from rfl, show B.«to» = u from rfl,
            harc_newF]
    · rw [ha_o w h1 h2] at hj
      obtain ⟨k1, k2, k3, k4, k5, k6⟩ := hwf w j hj
      rw [harc_old w j hj]
      refine ⟨k1, k2, k3, Nat.lt_of_lt_of_le k4 (hlen_ge _), ?_, ?_⟩
      · rw [harc_old _ _ k4]; exact k5
      · rw [harc_old _ _ k4]; exact k6
  have hcapG : CapNonneg G := by
    intro w j hj
    by_cases h1 : w = u
    · subst h1
      rw [hlen_u] at hj
      rcases Nat.lt_succ_iff_lt_or_eq.mp hj with hj | hj
      · rw [harc_old w j hj]; exact hcap0 w j hj
      · subst hj; rw [harc_newF]; exact hcap
    by_cases h2 : w = v
    · subst h2
      rw [hlen_v] at hj
      rcases Nat.lt_succ_iff_lt_or_eq.mp hj with hj | hj
      · rw [harc_old w j hj]; exact hcap0 w j hj
      · subst hj; rw [harc_newB]
    · rw [ha_o w h1 h2] at hj
      rw [harc_old w j hj]; exact hcap0 w j hj
  have hfzG : ∀ w j, j < (G.adj w).length → (arc G w j).flow = 0 := by
    intro w j hj
    by_cases h1 : w = u
    · subst h1
      rw [hlen_u] at hj
      rcases Nat.lt_succ_iff_lt_or_eq.mp hj with hj | hj
      · rw [harc_old w j hj]; exact hfz w j hj
      · subst hj; rw [harc_newF]
    by_cases h2 : w = v
    · subst h2
      rw [hlen_v] at hj
      rcases Nat.lt_succ_iff_lt_or_eq.mp hj with hj | hj
      · rw [harc_old w j hj]; exact hfz w j hj
      · subst hj; rw [harc_newB]
    · rw [ha_o w h1 h2] at hj
      rw [harc_old w j hj]; exact hfz w j hj
  exact ⟨hgn, hwfG, hcapG, hfzG, rfl, rfl, rfl, rfl, rfl⟩

lemma buildGraph_props (n : Nat) (es : List (Nat × Nat × Int))
    (hok : edgesOk n es) :
    (buildGraph n es).n = n ∧ WF (buildGraph n es) ∧
      CapNonneg (buildGraph n es) ∧
      (∀ w j, j < ((buildGraph n es).adj w).length →
        (arc (buildGraph n es) w j).flow = 0) ∧
      (buildGraph n es).excess = (fun _ => 0) ∧
      (buildGraph n es).dist = (fun _ => 0) ∧
      (buildGraph n es).count = (fun _ => 0) ∧
      (buildGraph n es).active = (fun _ => false) ∧
      (buildGraph n es).Q = [] := by
  unfold buildGraph
  refine foldl_inv _
    (fun g => g.n = n ∧ WF g ∧ CapNonneg g ∧
      (∀ w j, j < (g.adj w).length → (arc g w j).flow = 0) ∧
      g.excess = (fun _ => 0) ∧ g.dist = (fun _ => 0) ∧
      g.count = (fun _ => 0) ∧ g.active = (fun _ => false) ∧ g.Q = [])
    es (mkPushRelabel n)
    ⟨rfl, fun u i hi => absurd hi (by simp [mkPushRelabel]),
      fun u i hi => absurd hi (by simp [mkPushRelabel]),
      fun u i hi => absurd hi (by simp [mkPushRelabel]),
      rfl, rfl, rfl, rfl, rfl⟩ ?_
  intro x e he hP
  obtain ⟨p1, p2, p3, p4, p5, p6, p7, p8, p9⟩ := hP
  obtain ⟨q1, q2, q3⟩ := hok e he
  obtain ⟨r1, r2, r3, r4, r5, r6, r7, r8, r9⟩ :=
    addEdge_props e.1 e.2.1 e.2.2 p1 q1 q2 q3 p2 p3 p4
  exact ⟨r1, r2, r3, r4, r5.trans p5, r6.trans p6, r7.trans p7, r8.trans p8,
    r9.trans p9⟩

lemma sumFlow_zero {l : List Edge} (h : ∀ e ∈ l, e.flow = 0) : sumFlow l = 0 := by
  induction l with
  | nil => rfl
  | cons x xs ih =>
    rw [sumFlow_cons, h x (List.mem_cons_self x xs),
      ih (fun e he => h e (List.mem_cons_of_mem x he))]
    ring

lemma initState_eq (g : PRState) (s t : Nat) :
    initState g s t = { g with
      count := fupd (fupd g.count 0 ((g.n : Int) - 1)) g.n 1,
      dist := fupd g.dist s g.n,
      active := fupd (fupd g.active s true) t true } := rfl

/-- Facts about the state `initState (buildGraph n es) s t`, before the
preflow pushes. -/
lemma initState_facts (n : Nat) (es : List (Nat × Nat × Int)) (s t : Nat)
    (hok : edgesOk n es) (hn1 : 1 ≤ n) (hs : s < n) (ht : t < n) (hst : s ≠ t) :
    (initState (buildGraph n es) s t).n = n ∧
      (initState (buildGraph n es) s t).adj = (buildGraph n es).adj ∧
      (initState (buildGraph n es) s t).excess = (fun _ => 0) ∧
      (initState (buildGraph n es) s t).Q = [] ∧
      (∀ v, (initState (buildGraph n es) s t).dist v = if v = s then n else 0) ∧
      WF (initState (buildGraph n es) s t) ∧
      CapNonneg (initState (buildGraph n es) s t) ∧
      (∀ w j, j < (((initState (buildGraph n es) s t)).adj w).length →
        (arc (initState (buildGraph n es) s t) w j).flow = 0) ∧
      FlowLe (initState (buildGraph n es) s t) ∧
      FlowAnti (initState (buildGraph n es) s t) ∧
      ExAcct s (initState (buildGraph n es) s t) ∧
      QBundle s t (initState (buildGraph n es) s t) ∧
      (∀ h, (initState (buildGraph n es) s t).count h =
        heightCount (initState (buildGraph n es) s t) h) := by
  obtain ⟨hg0n, hwf0, hcap0, hfz0, hex0, hdist0, hcount0, hact0, hQ0⟩ :=
    buildGraph_props n es hok
  set g0 := buildGraph n es with hg0
  set x0 := initState g0 s t with hx0
  have hx0n : x0.n = n := hg0n
  have hx0adj : x0.adj = g0.adj := rfl
  have hx0exc : x0.excess = (fun _ => 0) := hex0
  have hx0Q : x0.Q = [] := hQ0
  have hx0dist : ∀ v, x0.dist v = if v = s then n else 0 := by
    intro v
    show fupd g0.dist s g0.n v = _
    rw [hdist0, hg0n]
    unfold fupd
    split_ifs <;> rfl
  have hx0wf : WF x0 := hwf0
  have hx0cap : CapNonneg x0 := hcap0
  have hx0fz : ∀ w j, j < (x0.adj w).length → (arc x0 w j).flow = 0 := hfz0
  have hx0fl : FlowLe x0 := by
    intro w j hj
    rw [hx0fz w j hj]
    exact hx0cap w j hj
  have hx0fa : FlowAnti x0 := by
    intro w j hj
    obtain ⟨-, -, -, k4, -, -⟩ := hx0wf w j hj
    rw [hx0fz w j hj, hx0fz _ _ k4]
    norm_num
  have hx0ea : ExAcct s x0 := by
    intro v _
    show x0.excess v = -sumFlow (x0.adj v)
    rw [hx0exc, sumFlow_zero]
    · norm_num
    · intro e he
      obtain ⟨j, hj, hje⟩ := mem_arc x0 v he
      rw [← hje]
      exact hx0fz v j hj
  have hx0actS : x0.active s = true := by
    show fupd (fupd g0.active s true) t true s = true
    rw [fupd_ne _ _ hst, fupd_self]
  have hx0actT : x0.active t = true := fupd_self _ _ _
  have hx0actO : ∀ v, v ≠ s → v ≠ t → x0.active v = false := by
    intro v hvs hvt
    show fupd (fupd g0.active s true) t true v = false
    rw [fupd_ne _ _ hvt, fupd_ne _ _ hvs, hact0]
  have hx0qb : QBundle s t x0 := by
    refine ⟨hx0actS, hx0actT, by rw [hx0Q]; exact List.nodup_nil, ?_, ?_, ?_, ?_, ?_⟩
    · rw [hx0Q]; exact List.not_mem_nil s
    · rw [hx0Q]; exact List.not_mem_nil t
    · intro w hw; rw [hx0Q] at hw; cases hw
    · intro w hws hwt
      rw [hx0actO w hws hwt, hx0Q]
      constructor
      · intro h; cases h
      · intro h; cases h
    · intro w hw; rw [hx0Q] at hw; cases hw
  have hx0cc : ∀ h, x0.count h = heightCount x0 h := by
    intro h
    have hcnt : x0.count h = if h = n then 1 else if h = 0 then (n : Int) - 1 else 0 := by
      show fupd (fupd g0.count 0 ((g0.n : Int) - 1)) g0.n 1 h = _
      rw [hcount0, hg0n]
      unfold fupd
      split_ifs <;> first | rfl | omega
    have hhc : heightCount x0 h = if h = n then 1 else if h = 0 then (n : Int) - 1 else 0 := by
      unfold heightCount
      rw [hx0n]
      have hind : ∀ v, (if x0.dist v = h then (1 : Int) else 0) =
          (if v = s then (if h = n then (1 : Int) else 0)
            else (if h = 0 then (1 : Int) else 0)) := by
        intro v
        rw [hx0dist v]
        split_ifs <;> omega
      rw [Finset.sum_congr rfl (fun v _ => hind v)]
      rw [show Finset.range n = insert s ((Finset.range n).erase s) from
        (Finset.insert_erase (Finset.mem_range.mpr hs)).symm]
      rw [Finset.sum_insert (Finset.not_mem_erase s _), if_pos rfl]
      rw [Finset.sum_congr rfl
        (fun v hv => if_neg (Finset.ne_of_mem_erase hv))]
      rw [Finset.sum_const, Finset.card_erase_of_mem (Finset.mem_range.mpr hs),
        Finset.card_range, nsmul_eq_mul]
      have hc : ((n - 1 : Nat) : Int) = (n : Int) - 1 := by omega
      rw [hc]
      split_ifs <;> omega
    rw [hcnt, hhc]
  exact ⟨hx0n, hx0adj, hx0exc, hx0Q, hx0dist, hx0wf, hx0cap, hx0fz, hx0fl,
    hx0fa, hx0ea, hx0qb, hx0cc⟩

/-- The invariant holds at the top of the main loop of `getMaxFlow`, for any
graph built by `addEdge` from a well-formed edge list. -/
lemma inv_initial (n : Nat) (es : List (Nat × Nat × Int)) (s t : Nat)
    (hok : edgesOk n es) (hn1 : 1 ≤ n) (hs : s < n) (ht : t < n) (hst : s ≠ t) :
    Inv s t (initialState (buildGraph n es) s t) := by
  obtain ⟨hx0n, hx0adj, hx0exc, hx0Q, hx0dist, hx0wf, hx0cap, hx0fz, hx0fl,
    hx0fa, hx0ea, hx0qb, hx0cc⟩ := initState_facts n es s t hok hn1 hs ht hst
  set x0 := initState (buildGraph n es) s t with hx0def
  have main := range_foldl_ind
    (fun g i => pushOp
      { g with excess := fupd g.excess s (g.excess s + ((g.adj s).getD i default).cap) }
      s i)
    (fun k x => x.n = n ∧ x.dist = x0.dist ∧ x.count = x0.count ∧ WF x ∧
      CapNonneg x ∧ FlowLe x ∧ FlowAnti x ∧ ExAcct s x ∧
      (∀ v, 0 ≤ x.excess v) ∧ QBundle s t x ∧ x.excess s = 0 ∧
      (∀ w, (x.adj w).length = (x0.adj w).length) ∧
      (∀ j, j < k → (arc x s j).cap - (arc x s j).flow ≤ 0) ∧
      (∀ j, k ≤ j → arc x s j = arc x0 s j))
    ((x0.adj s).length) x0
    ⟨hx0n, rfl, rfl, hx0wf, hx0cap, hx0fl, hx0fa, hx0ea,
      (by intro v; rw [hx0exc]), hx0qb, (by rw [hx0exc]),
      fun w => rfl, (by intro j hj; cases hj), fun j _ => rfl⟩ ?_
  · set F := (List.range ((x0.adj s).length)).foldl
      (fun g i => pushOp
        { g with excess := fupd g.excess s (g.excess s + ((g.adj s).getD i default).cap) }
        s i) x0 with hFdef
    obtain ⟨f1, f2, f3, f4, f5, f6, f7, f8, f9, f10, f11, f12, f13, f14⟩ := main
    obtain ⟨q1, q2, q3, q4, q5, q6, q7, q8⟩ := f10
    show Inv s t F
    refine ⟨?_, ?_, ?_, hst, f4, f5, f6, f7, ?_, f8, f9, ?_, ?_, ?_, ?_,
      q1, q2, q3, q4, q5, q6, q7, q8⟩
    · rw [f1]; exact hn1
    · rw [f1]; exact hs
    · rw [f1]; exact ht
    · intro w j hj hres
      by_cases hws : w = s
      · subst hws
        have hjL : j < (x0.adj w).length := by rw [← f12 w]; exact hj
        have := f13 j hjL
        omega
      · have hwz : F.dist w = 0 := by
          rw [f2, hx0dist w, if_neg hws]
        rw [hwz]
        exact Nat.zero_le _
    · left
      rw [f2, hx0dist s, if_pos rfl, f1]
    · rw [f2, hx0dist t, if_neg (fun h => hst h.symm)]
    · intro v
      rw [f2, hx0dist v, f1]
      split_ifs <;> omega
    · intro h
      rw [f3, hx0cc h]
      exact (heightCount_of_eq f2 (f1.trans hx0n.symm) h).symm
  intro k x hk hP
  obtain ⟨p1, p2, p3, p4, p5, p6, p7, p8, p9, p10, p11, p12, p13, p14⟩ := hP
  beta_reduce
  have hkl : k < (x.adj s).length := by rw [p12 s]; exact hk
  have harck : arc x s k = arc x0 s k := p14 k (le_refl k)
  have hcapk : 0 ≤ (arc x s k).cap := p5 s k hkl
  have hflowk : (arc x s k).flow = 0 := by
    rw [harck]
    exact hx0fz s k hk
  set xb : PRState :=
    { x with excess := fupd x.excess s (x.excess s + ((x.adj s).getD k default).cap) }
    with hxb
  have hxbexc_s : xb.excess s = (arc x s k).cap := by
    show fupd x.excess s (x.excess s + ((x.adj s).getD k default).cap) s = _
    rw [fupd_self, p11]
    show 0 + (arc x s k).cap = _
    ring
  have hxbexc_o : ∀ v, v ≠ s → xb.excess v = x.excess v := by
    intro v hv
    show fupd x.excess s _ v = _
    rw [fupd_ne _ _ hv]
  have hxbwf : WF xb := p4
  have hxbcap : CapNonneg xb := p5
  have hxbfl : FlowLe xb := p6
  have hxbfa : FlowAnti xb := p7
  have hxbea : ExAcct s xb := by
    intro v hv
    show xb.excess v = -sumFlow (xb.adj v)
    rw [hxbexc_o v hv]
    exact p8 v hv
  have hxbnn : ∀ v, 0 ≤ xb.excess v := by
    intro v
    by_cases hv : v = s
    · rw [hv, hxbexc_s]; exact hcapk
    · rw [hxbexc_o v hv]; exact p9 v
  have hsQ : s ∉ xb.Q := p10.2.2.2.1
  have hxbqb : QBundle s t xb := by
    obtain ⟨q1, q2, q3, q4, q5, q6, q7, q8⟩ := p10
    refine ⟨q1, q2, q3, q4, q5, q6, q7, ?_⟩
    intro w hw
    have hws : w ≠ s := fun h => q4 (h ▸ hw)
    rw [hxbexc_o w hws]
    exact q8 w hw
  have hto : (arc x s k).«to» ≠ s ∧ (arc x s k).«to» < n := by
    obtain ⟨-, k2, k3, -, -, -⟩ := p4 s k hkl
    exact ⟨k3, by rw [← p1]; exact k2⟩
  have hdists : xb.dist s = n := by
    show x.dist s = n
    rw [p2, hx0dist s, if_pos rfl]
  have hdistto : xb.dist (arc x s k).«to» = 0 := by
    show x.dist (arc x s k).«to» = 0
    rw [p2, hx0dist _, if_neg hto.1]
  have hamt : amtOf xb s k = (arc x s k).cap := by
    show min (xb.excess s) ((arc x s k).cap - (arc x s k).flow) = _
    rw [hxbexc_s, hflowk]
    simp
  by_cases hcap0 : (arc x s k).cap = 0
  · have hnoop : pushOp xb s k = xb := by
      apply pushOp_of_neg
      right
      rw [hamt, hcap0]
    rw [hnoop]
    refine ⟨p1, p2, p3, hxbwf, hxbcap, hxbfl, hxbfa, hxbea, hxbnn, hxbqb, ?_,
      p12, ?_, ?_⟩
    · rw [hxbexc_s, hcap0]
    · intro j hj
      rcases Nat.lt_succ_iff_lt_or_eq.mp hj with hj | hj
      · exact p13 j hj
      · subst hj
        show (arc x s j).cap - (arc x s j).flow ≤ 0
        rw [hflowk, hcap0]
        omega
    · intro j hj
      exact p14 j (by omega)
  · have hact : ¬(xb.dist s ≤ xb.dist (arc xb s k).«to» ∨ amtOf xb s k = 0) := by
      rw [not_or]
      constructor
      · show ¬ xb.dist s ≤ xb.dist (arc x s k).«to»
        rw [hdists, hdistto]
        omega
      · rw [hamt]; exact hcap0
    have hne : (arc xb s k).«to» ≠ s := hto.1
    have hpush := pushOp_of_act xb s k hact hne
    obtain ⟨b1, b2, b3, b4, b5, b6, b7⟩ :=
      pushOp_bundle s k (show k < (xb.adj s).length from hkl) hsQ hxbwf hxbcap hxbfl
        hxbfa hxbea hxbnn hxbqb
    refine ⟨?_, ?_, ?_, b1, b2, b3, b4, b5, b6, b7, ?_, ?_, ?_, ?_⟩
    · rw [pushOp_n]; exact p1
    · rw [pushOp_dist]; exact p2
    · rw [pushOp_count]; exact p3
    · have hexs : (pushOp xb s k).excess s = xb.excess s - amtOf xb s k := by
        rw [hpush, enqueue_excess]
        show fupd (fupd xb.excess s _) (arc xb s k).«to» _ s = _
        rw [fupd_ne _ _ (Ne.symm hne), fupd_self]
      rw [hexs, hxbexc_s, hamt]
      ring
    · intro w
      rw [pushOp_adj_length]
      exact p12 w
    · intro j hj
      rcases Nat.lt_succ_iff_lt_or_eq.mp hj with hj | hj
      · have hstable : arc (pushOp xb s k) s j = arc xb s j :=
          pushOp_arc_ne xb s k hkl hne j (by omega)
        rw [hstable]
        exact p13 j hj
      · subst hj
        have harcj : arc (pushOp xb s j) s j =
            { arc xb s j with flow := (arc xb s j).flow + amtOf xb s j } := by
          rw [hpush, arc, enqueue_adj]
          show (fupd (fupd xb.adj s ((xb.adj s).set j _)) (arc xb s j).«to» _ s).getD
            j default = _
          rw [fupd_ne _ _ (Ne.symm hne), fupd_self, getD_set_self _ _ _ hkl]
        rw [harcj]
        show (arc x s j).cap - ((arc x s j).flow + amtOf xb s j) ≤ 0
        rw [hamt, hflowk]
        omega
    · intro j hj
      have hstable : arc (pushOp xb s k) s j = arc xb s j :=
        pushOp_arc_ne xb s k hkl hne j (by omega)
      rw [hstable]
      exact p14 j (by omega)

/-! ## Machinery shared by the claim theorems -/

/-- Sequence of states visited by the main loop: `k` applications of
`loopStep` to a starting state (once the queue is empty `loopStep` is the
identity, so this enumerates every state the algorithm passes through). -/
def iterState (s t : Nat) (g : PRState) : Nat → PRState
  | 0 => g
  | k + 1 => loopStep s t (iterState s t g k)

lemma iterState_inv {s t : Nat} {g : PRState} (H : Inv s t g) (k : Nat) :
    Inv s t (iterState s t g k) := by
  induction k with
  | zero => exact H
  | succ m ih => exact loopStep_inv ih

lemma relabelOp_n (g : PRState) (u : Nat) : (relabelOp g u).n = g.n := by
  rw [relabelOp_eq, enqueue_n]

lemma dischargeScan_n (g : PRState) (u : Nat) :
    (dischargeScan g u).n = g.n := by
  unfold dischargeScan
  refine foldl_inv _ (fun x => x.n = g.n) _ g rfl ?_
  intro x i _ h
  split
  · rw [pushOp_n]; exact h
  · exact h

lemma discharge_n (g : PRState) (u : Nat) : (discharge g u).n = g.n := by
  have hdis : discharge g u =
      if 0 < (dischargeScan g u).excess u then
        (if (dischargeScan g u).count ((dischargeScan g u).dist u) = 1 then
          gapOp (dischargeScan g u) ((dischargeScan g u).dist u)
        else relabelOp (dischargeScan g u) u)
      else dischargeScan g u := rfl
  rw [hdis]
  split
  · split
    · rw [(gap_static _ _).2.2, dischargeScan_n]
    · rw [relabelOp_n, dischargeScan_n]
  · exact dischargeScan_n g u

lemma loopStep_n (s t : Nat) (g : PRState) : (loopStep s t g).n = g.n := by
  rcases hQ : g.Q with - | ⟨u, rest⟩
  · unfold loopStep
    rw [hQ]
  · unfold loopStep
    rw [hQ]
    dsimp only
    split
    · rfl
    · rw [discharge_n]

lemma iterState_n (s t : Nat) (g : PRState) (k : Nat) :
    (iterState s t g k).n = g.n := by
  induction k with
  | zero => rfl
  | succ m ih =>
    show (loopStep s t (iterState s t g m)).n = g.n
    rw [loopStep_n, ih]

lemma initPushes_n (g : PRState) (s : Nat) : (initPushes g s).n = g.n := by
  unfold initPushes
  refine foldl_inv _ (fun x => x.n = g.n) _ g rfl ?_
  intro x i _ h
  rw [pushOp_n]
  exact h

lemma initialState_n (g : PRState) (s t : Nat) : (initialState g s t).n = g.n := by
  unfold initialState
  rw [initPushes_n]
  rfl

/-- Both flows of a paired arc lie between minus the partner's capacity and
the arc's own capacity (for a forward arc the partner's capacity is `0`, so
this is `0 ≤ flow ≤ cap`; backward arcs carry the negated forward flow). -/
def FlowBounds (g : PRState) : Prop :=
  ∀ u i, i < (g.adj u).length →
    -(arc g (arc g u i).«to» (arc g u i).rev).cap ≤ (arc g u i).flow ∧
      (arc g u i).flow ≤ (arc g u i).cap

lemma inv_flowBounds {s t : Nat} {g : PRState} (H : Inv s t g) : FlowBounds g := by
  intro u i hi
  obtain ⟨-, -, -, hrev, -, -⟩ := H.wf u i hi
  refine ⟨?_, H.flowLe u i hi⟩
  have h1 := H.flowLe (arc g u i).«to» (arc g u i).rev hrev
  have h2 := H.flowAnti u i hi
  omega

lemma sumFlow_neg {l : List Edge} (h : sumFlow l < 0) : ∃ e ∈ l, e.flow < 0 := by
  induction l with
  | nil =>
    have h0 : sumFlow ([] : List Edge) = 0 := rfl
    omega
  | cons x xs ih =>
    rw [sumFlow_cons] at h
    by_cases hx : x.flow < 0
    · exact ⟨x, List.mem_cons_self x xs, hx⟩
    · have hxs : sumFlow xs < 0 := by omega
      obtain ⟨e, he, hef⟩ := ih hxs
      exact ⟨e, List.mem_cons_of_mem x he, hef⟩

/-- A vertex has a residual outgoing arc. -/
def ResidualOut (g : PRState) (u : Nat) : Prop :=
  ∃ i, i < (g.adj u).length ∧ 0 < (arc g u i).cap - (arc g u i).flow

/-- Under the solve invariant, every vertex other than the source with
positive excess has a residual outgoing arc (its recorded excess is the
negated sum of its arc flows, so some arc carries negative flow and has
positive residual). -/
lemma inv_residualOut {s t : Nat} {g : PRState} (H : Inv s t g) (u : Nat)
    (hus : u ≠ s) (hex : 0 < g.excess u) : ResidualOut g u := by
  have hacc := H.exAcct u hus
  have hneg : sumFlow (g.adj u) < 0 := by omega
  obtain ⟨e, he, hef⟩ := sumFlow_neg hneg
  obtain ⟨i, hi, hie⟩ := mem_arc g u he
  refine ⟨i, hi, ?_⟩
  have hcap := H.capNN u i hi
  rw [hie] at hcap ⊢
  omega

/-- Histogram consistency: every bucket of the height histogram holds the
number of vertices at that height. -/
def HistogramConsistent (g : PRState) : Prop :=
  ∀ h, g.count h = heightCount g h

lemma enqueue_Q (g : PRState) (v : Nat) :
    (enqueue g v).Q =
      if g.active v = false ∧ 0 < g.excess v then g.Q ++ [v] else g.Q := by
  unfold enqueue
  split_ifs with hc
  · rfl
  · rfl

lemma pushOp_flow_self (g : PRState) (u i : Nat) (hi : i < (g.adj u).length)
    (hne : (arc g u i).«to» ≠ u)
    (hact : ¬(g.dist u ≤ g.dist (arc g u i).«to» ∨ amtOf g u i = 0)) :
    (arc (pushOp g u i) u i).flow = (arc g u i).flow + amtOf g u i := by
  rw [pushOp_of_act g u i hact hne, arc, enqueue_adj]
  show ((fupd (fupd g.adj u ((g.adj u).set i _)) (arc g u i).«to» _ u).getD
    i default).flow = _
  rw [fupd_ne _ _ (Ne.symm hne), fupd_self, getD_set_self _ _ _ hi]

lemma pushOp_flow_rev (g : PRState) (u i : Nat)
    (hne : (arc g u i).«to» ≠ u)
    (hrev : (arc g u i).rev < (g.adj (arc g u i).«to»).length)
    (hact : ¬(g.dist u ≤ g.dist (arc g u i).«to» ∨ amtOf g u i = 0)) :
    (arc (pushOp g u i) (arc g u i).«to» (arc g u i).rev).flow =
      (arc g (arc g u i).«to» (arc g u i).rev).flow - amtOf g u i := by
  rw [pushOp_of_act g u i hact hne, arc, enqueue_adj]
  show ((fupd (fupd g.adj u ((g.adj u).set i _)) (arc g u i).«to» _
    (arc g u i).«to»).getD (arc g u i).rev default).flow = _
  rw [fupd_self, getD_set_self _ _ _ hrev]

lemma pushOp_excess_self (g : PRState) (u i : Nat)
    (hne : (arc g u i).«to» ≠ u)
    (hact : ¬(g.dist u ≤ g.dist (arc g u i).«to» ∨ amtOf g u i = 0)) :
    (pushOp g u i).excess u = g.excess u - amtOf g u i := by
  rw [pushOp_of_act g u i hact hne, enqueue_excess]
  show fupd (fupd g.excess u (g.excess u - amtOf g u i)) (arc g u i).«to» _ u = _
  rw [fupd_ne _ _ (Ne.symm hne), fupd_self]

lemma pushOp_excess_to (g : PRState) (u i : Nat)
    (hne : (arc g u i).«to» ≠ u)
    (hact : ¬(g.dist u ≤ g.dist (arc g u i).«to» ∨ amtOf g u i = 0)) :
    (pushOp g u i).excess (arc g u i).«to» =
      g.excess (arc g u i).«to» + amtOf g u i := by
  rw [pushOp_of_act g u i hact hne, enqueue_excess]
  show fupd (fupd g.excess u (g.excess u - amtOf g u i)) (arc g u i).«to» _
    (arc g u i).«to» = _
  rw [fupd_self]

lemma pushOp_Q_eq (g : PRState) (u i : Nat)
    (hne : (arc g u i).«to» ≠ u)
    (hact : ¬(g.dist u ≤ g.dist (arc g u i).«to» ∨ amtOf g u i = 0)) :
    (pushOp g u i).Q =
      if g.active (arc g u i).«to» = false ∧
          0 < g.excess (arc g u i).«to» + amtOf g u i then
        g.Q ++ [(arc g u i).«to»]
      else g.Q := by
  rw [pushOp_of_act g u i hact hne, enqueue_Q]
  dsimp only
  simp only [fupd_self]

/-- Popping the source or the sink from the queue performs no discharge:
the loop body only removes it and clears its active flag. -/
lemma loopStep_pop (s t : Nat) (x : PRState) (u : Nat) (rest : List Nat)
    (hQ : x.Q = u :: rest) (hu : u = s ∨ u = t) :
    loopStep s t x = { x with Q := rest, active := fupd x.active u false } := by
  unfold loopStep
  rw [hQ]
  dsimp only
  rw [if_pos hu]

/-- Final height of a vertex, read out of an optional final state. -/
def distAt (r : Option PRState) (v : Nat) : Option Nat :=
  r.map (fun g => g.dist v)

/-- Flow of the arc of index `i` out of `u`, read out of an optional final
state. -/
def flowAt (r : Option PRState) (u i : Nat) : Option Int :=
  r.map (fun g => (arc g u i).flow)

/-- Indices the initialisation writes are in range of the vectors allocated
by the constructor: `count[0]` and `count[n]` against the `2 * n` histogram
buckets, `dist[s]`, `active[s]` and `active[t]` against the `n`-sized vertex
vectors (`getMaxFlow` lines `count[0] = n - 1; count[n] = 1; dist[s] = n;
active[s] = active[t] = true;`). -/
def initAccessIndicesOk (n s t : Nat) : Prop :=
  0 < countBuckets n ∧ n < countBuckets n ∧ s < n ∧ t < n

instance (n s t : Nat) : Decidable (initAccessIndicesOk n s t) := by
  unfold initAccessIndicesOk
  infer_instance

/-- Amended C3: at every point of the solve the source's height is `n` or
`n + 1` (the gap heuristic can lift it by one), the sink's height stays `0`,
and popping the source or the sink performs no discharge. -/
def C3Amended (n : Nat) (es : List (Nat × Nat × Int)) (s t : Nat) : Prop :=
  (∀ k, (iterState s t (initialState (buildGraph n es) s t) k).dist s = n ∨
      (iterState s t (initialState (buildGraph n es) s t) k).dist s = n + 1) ∧
  (∀ k, (iterState s t (initialState (buildGraph n es) s t) k).dist t = 0) ∧
  (∀ x : PRState, ∀ u rest, x.Q = u :: rest → u = s ∨ u = t →
    loopStep s t x = { x with Q := rest, active := fupd x.active u false })

/-- Amended C4: the histogram stays consistent with the heights at every
point of the solve; under the solve invariant a non-source vertex with
positive excess always has a residual outgoing arc (so relabel's
no-residual-arc fallback height `2n` is never the branch taken for a
discharged vertex) and whenever some residual arc exists the relabelled
height is at most one above that arc's destination; and every height at
every point of the solve, every relabelled height, and every height written
by a gap step is at most `2n` — so, the allocated buckets being `0..2n-1`,
the single unallocated index `2n` is the only histogram access that can
fall out of range. -/
def C4Amended (n : Nat) (es : List (Nat × Nat × Int)) (s t : Nat) : Prop :=
  (∀ k, HistogramConsistent (iterState s t (initialState (buildGraph n es) s t) k)) ∧
  (∀ g, Inv s t g → ∀ u, u ≠ s → 0 < g.excess u → ResidualOut g u) ∧
  (∀ g u i, i < (g.adj u).length → 0 < (arc g u i).cap - (arc g u i).flow →
    relabelDist g u ≤ g.dist (arc g u i).«to» + 1) ∧
  (∀ k v, (iterState s t (initialState (buildGraph n es) s t) k).dist v ≤ 2 * n) ∧
  (∀ g u, relabelDist g u ≤ 2 * g.n) ∧
  (∀ (g : PRState) (c v : Nat), 1 ≤ g.n → g.dist v ≤ 2 * g.n →
    (gapOp g c).dist v ≤ 2 * g.n)

/-- C5: height validity holds right after preflow initialisation and at every
point of the main loop thereafter. -/
def C5Valid (n : Nat) (es : List (Nat × Nat × Int)) (s t : Nat) : Prop :=
  Valid (initialState (buildGraph n es) s t) ∧
  ∀ k, Valid (iterState s t (initialState (buildGraph n es) s t) k)

/-- Amended C6: at every point of the solve, and at termination, every arc's
flow lies between minus the paired reverse arc's capacity and its own
capacity (so forward arcs satisfy `0 ≤ flow ≤ cap`, while backward arcs carry
the negated forward flow and are not nonnegative in general). -/
def C6Amended (n : Nat) (es : List (Nat × Nat × Int)) (s t fuel : Nat) : Prop :=
  (∀ k, FlowBounds (iterState s t (initialState (buildGraph n es) s t) k)) ∧
  (∀ g', solveState (buildGraph n es) s t fuel = some g' → FlowBounds g')

/-- C10: at every point of the solve, a vertex other than the source and the
sink is flagged active exactly when it sits in the FIFO queue, the queue
holds no duplicates, and every queued vertex has positive excess. -/
def C10Queue (n : Nat) (es : List (Nat × Nat × Int)) (s t : Nat) : Prop :=
  ∀ k,
    (∀ v, v ≠ s → v ≠ t →
      ((iterState s t (initialState (buildGraph n es) s t) k).active v = true ↔
        v ∈ (iterState s t (initialState (buildGraph n es) s t) k).Q)) ∧
    (iterState s t (initialState (buildGraph n es) s t) k).Q.Nodup ∧
    (∀ v ∈ (iterState s t (initialState (buildGraph n es) s t) k).Q,
      0 < (iterState s t (initialState (buildGraph n es) s t) k).excess v)

/-- Two-vertex state used for the push characterisation (C7): vertex `0`
holds excess `3` at height `1`; arc `0` of vertex `0` is admissible with
capacity `5`, arc `1` has capacity `0`; every active flag is set, the queue
is empty. -/
def c7State : PRState :=
  { n := 2,
    adj := fupd (fupd (fun _ => [])
        0 [{ «to» := 1, rev := 0, flow := 0, cap := 5 },
           { «to» := 1, rev := 1, flow := 0, cap := 0 }])
      1 [{ «to» := 0, rev := 0, flow := 0, cap := 0 },
         { «to» := 0, rev := 1, flow := 0, cap := 0 }],
    excess := fupd (fun _ => 0) 0 3,
    dist := fupd (fun _ => 0) 0 1,
    count := fun _ => 0,
    active := fun _ => true,
    Q := [] }

/-- Three-vertex state for the discharge-rescan counterexample (C8): vertex
`0` holds excess `7` at height `1` with two admissible arcs of capacities `3`
and `10`. -/
def c8First : PRState :=
  { n := 3,
    adj := fupd (fupd (fupd (fun _ => [])
        0 [{ «to» := 1, rev := 0, flow := 0, cap := 3 },
           { «to» := 2, rev := 0, flow := 0, cap := 10 }])
      1 [{ «to» := 0, rev := 0, flow := 0, cap := 0 }])
      2 [{ «to» := 0, rev := 1, flow := 0, cap := 0 }],
    excess := fupd (fun _ => 0) 0 7,
    dist := fupd (fun _ => 0) 0 1,
    count := fun _ => 0,
    active := fun _ => true,
    Q := [] }

/-- State after `discharge c8First 0`, with vertex `0` handed fresh excess
`2` and arc `0` made residual again (its flow reset to `0`), as a reverse
push would do: heights are untouched, so no relabel happened in between. -/
def c8Second : PRState :=
  { discharge c8First 0 with
    excess := fupd (discharge c8First 0).excess 0 2,
    adj := fupd (discharge c8First 0).adj 0
      (((discharge c8First 0).adj 0).set 0
        { «to» := 1, rev := 0, flow := 0, cap := 3 }) }

/-- Two-vertex state for the discharge-from-arc-zero witness (C8): vertex `0`
holds excess `2` at height `1`; its arc `0` is admissible with residual `5`. -/
def c8State : PRState :=
  { n := 2,
    adj := fupd (fupd (fun _ => [])
        0 [{ «to» := 1, rev := 0, flow := 0, cap := 5 }])
      1 [{ «to» := 0, rev := 0, flow := 0, cap := 0 }],
    excess := fupd (fun _ => 0) 0 2,
    dist := fupd (fun _ => 0) 0 1,
    count := fun _ => 0,
    active := fun _ => true,
    Q := [] }

/-! ## The claim theorems -/

/-- C1: on the three concrete scenarios the solver returns exactly the
maximum-flow value of the network: `20` on the four-vertex diamond, `3` on
the five-vertex bottleneck chain, `10` on the two parallel arcs (each value
certified by a feasible flow attaining it and a proof that no feasible flow
exceeds it). -/
theorem c1_concrete_maxflows :
    (getMaxFlow (buildGraph 4 diamondEdges) 0 3 50 = some 20 ∧
      IsMaxFlowValue 4 diamondEdges 0 3 20) ∧
    (getMaxFlow (buildGraph 5 chainEdges) 0 4 50 = some 3 ∧
      IsMaxFlowValue 5 chainEdges 0 4 3) ∧
    (getMaxFlow (buildGraph 2 parallelEdges) 0 1 50 = some 10 ∧
      IsMaxFlowValue 2 parallelEdges 0 1 10) :=
  ⟨⟨by decide, diamond_max⟩, ⟨by decide, chain_max⟩, ⟨by decide, parallel_max⟩⟩

/-- C2 counterexample: with source `7` far out of range of the 2-vertex
graph, `getMaxFlow` still returns `some 0`, the very value a legitimate
zero-flow instance (the edgeless graph) returns: no defined error or empty
result distinguishes misconfiguration from a computed `0`. -/
theorem c2_counterexample :
    getMaxFlow (buildGraph 2 [(0, 1, 5)]) 7 1 50 = some 0 ∧
    getMaxFlow (buildGraph 2 []) 0 1 50 = some 0 ∧
    ¬ 7 < (buildGraph 2 [(0, 1, 5)]).n := by decide

/-- C2 amended: `getMaxFlow` validates nothing; whenever the source's
adjacency list is empty (as for any out-of-range source index) and the queue
starts empty, the solve proceeds normally and returns `some 0`. -/
theorem c2_no_validation (g : PRState) (s t fuel : Nat)
    (hadj : g.adj s = []) (hQ : g.Q = []) :
    getMaxFlow g s t fuel = some 0 := by
  have hpush : initPushes (initState g s t) s = initState g s t := by
    unfold initPushes
    have hadj1 : (initState g s t).adj s = [] := hadj
    rw [hadj1]
    rfl
  have hadj2 : (initialState g s t).adj s = [] := by
    unfold initialState
    rw [hpush]
    exact hadj
  have hQ2 : (initialState g s t).Q = [] := by
    unfold initialState
    rw [hpush]
    exact hQ
  have hloop : loop s t fuel (initialState g s t) = some (initialState g s t) := by
    cases fuel with
    | zero =>
      simp only [loop]
      rw [if_pos hQ2]
    | succ m =>
      simp only [loop]
      rw [if_pos hQ2]
  have hfo : flowOut (initialState g s t) s = 0 := by
    unfold flowOut
    rw [hadj2]
    rfl
  unfold getMaxFlow
  rw [hloop]
  show some (flowOut (initialState g s t) s) = some 0
  rw [hfo]

/-- Witness for C2: the amended theorem applied to the out-of-range source
`7` on the 2-vertex single-edge graph. -/
theorem c2_no_validation_witness :
    getMaxFlow (buildGraph 2 [(0, 1, 5)]) 7 1 50 = some 0 :=
  c2_no_validation (buildGraph 2 [(0, 1, 5)]) 7 1 50 (by decide) (by decide)

/-- C3 counterexample: on the chain `0→1(5), 1→2(3)` with `n = 3`, the source
starts the solve at height `n = 3` but finishes it at height `4`: the gap
heuristic does relabel the source, so its height does not stay fixed at `n`. -/
theorem c3_counterexample :
    distAt (solveState (buildGraph 3 chain3Edges) 0 2 50) 0 = some 4 ∧
    (buildGraph 3 chain3Edges).n = 3 ∧
    (initialState (buildGraph 3 chain3Edges) 0 2).dist 0 = 3 := by decide

/-- C3 amended: throughout the solve the source's height is `n` or `n + 1`
(the gap heuristic may lift it once to `n + 1`, as its scan spares no vertex
at height at least the emptied level), the sink's height stays `0`, and
popping the source or the sink from the queue performs no discharge. -/
theorem c3_source_sink_heights (n : Nat) (es : List (Nat × Nat × Int))
    (s t : Nat) (hok : edgesOk n es) (hn1 : 1 ≤ n) (hs : s < n) (ht : t < n)
    (hst : s ≠ t) : C3Amended n es s t := by
  have hI0 := inv_initial n es s t hok hn1 hs ht hst
  have hn_init : (initialState (buildGraph n es) s t).n = n := by
    rw [initialState_n, (buildGraph_props n es hok).1]
  refine ⟨?_, ?_, ?_⟩
  · intro k
    have hI := iterState_inv hI0 k
    have hkn : (iterState s t (initialState (buildGraph n es) s t) k).n = n := by
      rw [iterState_n, hn_init]
    rcases hI.distS with h | h
    · left; rw [h, hkn]
    · right; rw [h, hkn]
  · intro k
    exact (iterState_inv hI0 k).distT
  · intro x u rest hQ hu
    exact loopStep_pop s t x u rest hQ hu

/-- Witness for C3: the amended theorem applied to the three-vertex chain. -/
theorem c3_source_sink_heights_witness : C3Amended 3 chain3Edges 0 2 :=
  c3_source_sink_heights 3 chain3Edges 0 2 (by decide) (by decide) (by decide)
    (by decide) (by decide)

/-- C4 counterexample: the constructor allocates `countBuckets n = 2n`
histogram buckets (indices `0..2n-1`), so height `2n` has no bucket; on a
vertex with no outgoing arc, `relabelOp` sets height `2 * n = 4` (here
`n = 2`) and increments the histogram at that index, which is not an
allocated bucket: the update is out of bounds. -/
theorem c4_counterexample :
    countBuckets (buildGraph 2 []).n = 4 ∧
    (relabelOp (buildGraph 2 []) 0).dist 0 = 4 ∧
    (relabelOp (buildGraph 2 []) 0).count 4 = 1 ∧
    ¬ 4 < countBuckets (buildGraph 2 []).n := by decide

/-- C4 amended: the histogram stays consistent with the multiset of heights
at every point of the solve; under the solve invariant a non-source vertex
with positive excess always has a residual outgoing arc (so the
no-residual-arc fallback is not the branch taken for a discharged vertex)
and with a residual arc present the relabelled height is bounded by that
arc's destination height plus one; and all heights along the solve, all
relabelled heights, and all heights written by gap are at most `2n`: with
buckets `0..2n-1` allocated, the unallocated index `2n` is the only
histogram access that can fall out of range. -/
theorem c4_histogram_consistency (n : Nat) (es : List (Nat × Nat × Int))
    (s t : Nat) (hok : edgesOk n es) (hn1 : 1 ≤ n) (hs : s < n) (ht : t < n)
    (hst : s ≠ t) : C4Amended n es s t := by
  have hI0 := inv_initial n es s t hok hn1 hs ht hst
  refine ⟨fun k => (iterState_inv hI0 k).countC, ?_, ?_, ?_, ?_, ?_⟩
  · intro g hI u hus hex
    exact inv_residualOut hI u hus hex
  · intro g u i hi hres
    exact relabelDist_le_arc g u (arc_mem g u i hi) hres
  · intro k v
    have hI := iterState_inv hI0 k
    have hkn : (iterState s t (initialState (buildGraph n es) s t) k).n = n := by
      rw [iterState_n, initialState_n, (buildGraph_props n es hok).1]
    have hb := hI.distLe v
    rw [hkn] at hb
    exact hb
  · intro g u
    exact relabelDist_le g u
  · intro g c v hgn hdv
    rw [gap_dist g c v]
    split
    · exact max_le hdv (by omega)
    · exact hdv

/-- Witness for C4: the amended theorem applied to the three-vertex chain. -/
theorem c4_histogram_consistency_witness : C4Amended 3 chain3Edges 0 2 :=
  c4_histogram_consistency 3 chain3Edges 0 2 (by decide) (by decide) (by decide)
    (by decide) (by decide)

/-- C5: height validity (for every residual arc, `height(u) ≤ height(v) + 1`)
holds right after preflow initialisation and at every point of the main loop
thereafter, each iteration being a push, relabel or gap step scheduled by
`loopStep`. -/
theorem c5_height_validity (n : Nat) (es : List (Nat × Nat × Int)) (s t : Nat)
    (hok : edgesOk n es) (hn1 : 1 ≤ n) (hs : s < n) (ht : t < n) (hst : s ≠ t) :
    C5Valid n es s t := by
  have hI0 := inv_initial n es s t hok hn1 hs ht hst
  exact ⟨hI0.valid, fun k => (iterState_inv hI0 k).valid⟩

/-- Witness for C5: the theorem applied to the three-vertex chain. -/
theorem c5_height_validity_witness : C5Valid 3 chain3Edges 0 2 :=
  c5_height_validity 3 chain3Edges 0 2 (by decide) (by decide) (by decide)
    (by decide) (by decide)

/-- C6 counterexample: after solving the single-edge graph `0→1(5)`, the
backward arc stored in `adj[1]` carries flow `-5`: stored arcs do not all
satisfy `0 ≤ flow`. -/
theorem c6_counterexample :
    flowAt (solveState (buildGraph 2 [(0, 1, 5)]) 0 1 50) 1 0 = some (-5) := by
  decide

/-- C6 amended: at every point of the solve and at termination, every stored
arc satisfies `-cap(reverse) ≤ flow ≤ cap`; for forward arcs the paired
backward arc has capacity `0`, giving `0 ≤ flow ≤ cap`, while backward arcs
carry the negated forward flow. -/
theorem c6_flow_bounds (n : Nat) (es : List (Nat × Nat × Int)) (s t fuel : Nat)
    (hok : edgesOk n es) (hn1 : 1 ≤ n) (hs : s < n) (ht : t < n) (hst : s ≠ t) :
    C6Amended n es s t fuel := by
  have hI0 := inv_initial n es s t hok hn1 hs ht hst
  refine ⟨fun k => inv_flowBounds (iterState_inv hI0 k), ?_⟩
  intro g' hg'
  have hg2 : loop s t fuel (initialState (buildGraph n es) s t) = some g' := hg'
  exact inv_flowBounds (loop_inv fuel _ g' hg2 hI0)

/-- Witness for C6: the amended theorem applied to the three-vertex chain. -/
theorem c6_flow_bounds_witness : C6Amended 3 chain3Edges 0 2 50 :=
  c6_flow_bounds 3 chain3Edges 0 2 50 (by decide) (by decide) (by decide)
    (by decide) (by decide)

/-- C7 counterexample: pushing along arc `0` of `c7State` (taking the sink to
be vertex `0`, so the destination `1` is not the sink), the destination is
not queued and ends with positive excess `3`, yet it is not enqueued: its
active flag was already set, and the code's enqueue tests `!active[v]`,
never sink-ness. -/
theorem c7_counterexample :
    (arc c7State 0 0).«to» = 1 ∧ (1 : Nat) ≠ 0 ∧ c7State.Q = [] ∧
    (pushOp c7State 0 0).excess 1 = 3 ∧ (pushOp c7State 0 0).Q = [] := by decide

/-- C7 amended: an acting `push(u, arc)` moves `amt = min(excess(u),
residual)` onto the arc and off the paired reverse arc, moves the same
amount of excess from `u` to the destination, never changes any height, and
appends the destination to the queue exactly when its active flag is unset
and its new excess is positive (sink-ness is never consulted); a call with
`amt = 0` or `height(u) ≤ height(destination)` leaves the state unchanged. -/
theorem c7_push_effect (g : PRState) (u i j : Nat)
    (hi : i < (g.adj u).length) (hne : (arc g u i).«to» ≠ u)
    (hrev : (arc g u i).rev < (g.adj (arc g u i).«to»).length)
    (hact : ¬(g.dist u ≤ g.dist (arc g u i).«to» ∨ amtOf g u i = 0))
    (hnoop : g.dist u ≤ g.dist (arc g u j).«to» ∨ amtOf g u j = 0) :
    amtOf g u i = min (g.excess u) ((arc g u i).cap - (arc g u i).flow) ∧
    (arc (pushOp g u i) u i).flow = (arc g u i).flow + amtOf g u i ∧
    (arc (pushOp g u i) (arc g u i).«to» (arc g u i).rev).flow =
      (arc g (arc g u i).«to» (arc g u i).rev).flow - amtOf g u i ∧
    (pushOp g u i).excess u = g.excess u - amtOf g u i ∧
    (pushOp g u i).excess (arc g u i).«to» =
      g.excess (arc g u i).«to» + amtOf g u i ∧
    (pushOp g u i).dist = g.dist ∧
    (pushOp g u i).Q =
      (if g.active (arc g u i).«to» = false ∧
          0 < g.excess (arc g u i).«to» + amtOf g u i then
        g.Q ++ [(arc g u i).«to»]
      else g.Q) ∧
    pushOp g u j = g :=
  ⟨rfl, pushOp_flow_self g u i hi hne hact, pushOp_flow_rev g u i hne hrev hact,
    pushOp_excess_self g u i hne hact, pushOp_excess_to g u i hne hact,
    pushOp_dist g u i, pushOp_Q_eq g u i hne hact, pushOp_of_neg g u j hnoop⟩

/-- Witness for C7: the push characterisation applied to `c7State` with the
admissible arc `0` and the zero-residual arc `1`. -/
theorem c7_push_effect_witness :
    (pushOp c7State 0 0).excess (arc c7State 0 0).«to» =
        c7State.excess (arc c7State 0 0).«to» + amtOf c7State 0 0 ∧
      (pushOp c7State 0 0).dist = c7State.dist ∧
      pushOp c7State 0 1 = c7State := by
  obtain ⟨h1, h2, h3, h4, h5, h6, h7, h8⟩ :=
    c7_push_effect c7State 0 0 1 (by decide) (by decide) (by decide) (by decide)
      (by decide)
  exact ⟨h5, h6, h8⟩

/-- C8 counterexample: discharging `c8First` saturates arc `0` (flow `3`) and
moves on to arc `1` (flow `4`), with no relabel (the height is unchanged);
`c8Second` continues from that very result with fresh excess and arc `0` made
residual again, heights untouched — a persistent current-arc cursor would
resume at arc `1`, yet the second discharge pushes arc `0` again: discharge
re-scans from index zero on every call. -/
theorem c8_counterexample :
    (arc (discharge c8First 0) 0 0).flow = 3 ∧
    (arc (discharge c8First 0) 0 1).flow = 4 ∧
    (discharge c8First 0).dist 0 = c8First.dist 0 ∧
    (arc c8Second 0 0).flow = 0 ∧
    c8Second.dist 0 = c8First.dist 0 ∧
    (arc (discharge c8Second 0) 0 0).flow = 2 ∧
    (arc (discharge c8Second 0) 0 1).flow = 4 := by decide

/-- C8 amended: there is no per-vertex cursor; every `discharge(u)` call
scans the arc list from index zero, so whenever arc `0` of `u` is admissible
with residual at least the excess, the call pushes the whole excess through
arc `0` (regardless of where any previous call stopped) and performs no
relabel. -/
theorem c8_rescan_from_zero (g : PRState) (u : Nat)
    (h0 : 0 < (g.adj u).length)
    (hne : (arc g u 0).«to» ≠ u)
    (hadm : g.dist (arc g u 0).«to» < g.dist u)
    (hex : 0 < g.excess u)
    (hres : g.excess u ≤ (arc g u 0).cap - (arc g u 0).flow) :
    (arc (discharge g u) u 0).flow = (arc g u 0).flow + g.excess u ∧
    (discharge g u).excess u = 0 ∧
    (discharge g u).dist u = g.dist u := by
  have hamt : amtOf g u 0 = g.excess u := min_eq_left hres
  have hguard : ¬(g.dist u ≤ g.dist (arc g u 0).«to» ∨ amtOf g u 0 = 0) := by
    rw [hamt]
    rintro (h | h) <;> omega
  have hflow := pushOp_flow_self g u 0 h0 hne hguard
  have hexc := pushOp_excess_self g u 0 hne hguard
  have hdist := pushOp_dist g u 0
  set g1 := pushOp g u 0 with hg1
  have hg1ex : g1.excess u = 0 := by
    rw [hexc, hamt]
    ring
  obtain ⟨m, hm⟩ : ∃ m, (g.adj u).length = m + 1 :=
    ⟨(g.adj u).length - 1, by omega⟩
  have hscan : dischargeScan g u = g1 := by
    unfold dischargeScan
    rw [hm, List.range_succ_eq_map, List.foldl_cons]
    rw [if_pos hex, ← hg1]
    refine foldl_inv _ (fun x => x = g1) _ g1 rfl ?_
    intro x e _ hx
    subst hx
    rw [if_neg (by rw [hg1ex]; omega)]
  have hdis : discharge g u =
      if 0 < (dischargeScan g u).excess u then
        (if (dischargeScan g u).count ((dischargeScan g u).dist u) = 1 then
          gapOp (dischargeScan g u) ((dischargeScan g u).dist u)
        else relabelOp (dischargeScan g u) u)
      else dischargeScan g u := rfl
  have hdis2 : discharge g u = g1 := by
    rw [hdis, hscan, if_neg (by rw [hg1ex]; omega)]
  refine ⟨?_, ?_, ?_⟩
  · rw [hdis2, ← hamt]
    exact hflow
  · rw [hdis2]
    exact hg1ex
  · rw [hdis2, hdist]

/-- Witness for C8: the amended theorem applied to `c8State`, whose arc `0`
absorbs the whole excess. -/
theorem c8_rescan_from_zero_witness :
    (arc (discharge c8State 0) 0 0).flow =
        (arc c8State 0 0).flow + c8State.excess 0 ∧
      (discharge c8State 0).excess 0 = 0 ∧
      (discharge c8State 0).dist 0 = c8State.dist 0 :=
  c8_rescan_from_zero c8State 0 (by decide) (by decide) (by decide) (by decide)
    (by decide)

/-- C9 counterexample: on the zero-vertex graph the very first initialisation
write `count[0] = n - 1` already has no bucket to land in (`countBuckets 0 =
0`), so initialisation is not free of out-of-bounds accesses. -/
theorem c9_counterexample :
    ¬ initAccessIndicesOk 0 0 0 ∧ ¬ 0 < countBuckets 0 := by decide

/-- C9 amended: zero- and one-vertex graphs return flow `0` with an empty
queue (fuel `0` suffices: the loop body never runs), and for `n = 1` every
initialisation index is in range; for `n = 0` the histogram writes are out
of bounds. -/
theorem c9_small_graphs :
    getMaxFlow (buildGraph 0 []) 0 0 0 = some 0 ∧
    (initialState (buildGraph 0 []) 0 0).Q = [] ∧
    getMaxFlow (buildGraph 1 []) 0 0 0 = some 0 ∧
    (initialState (buildGraph 1 []) 0 0).Q = [] ∧
    initAccessIndicesOk 1 0 0 ∧
    ¬ initAccessIndicesOk 0 0 0 := by decide

/-- C10: at every point of the solve, a vertex other than the source and the
sink is flagged active exactly when it is in the FIFO queue; the queue never
holds two copies of a vertex; and every queued vertex (in particular the one
about to be popped and discharged) has positive excess. -/
theorem c10_active_iff_queued (n : Nat) (es : List (Nat × Nat × Int))
    (s t : Nat) (hok : edgesOk n es) (hn1 : 1 ≤ n) (hs : s < n) (ht : t < n)
    (hst : s ≠ t) : C10Queue n es s t := by
  have hI0 := inv_initial n es s t hok hn1 hs ht hst
  intro k
  have hI := iterState_inv hI0 k
  exact ⟨hI.activeIff, hI.nodup, hI.exPos⟩

/-- Witness for C10: the theorem applied to the three-vertex chain. -/
theorem c10_active_iff_queued_witness : C10Queue 3 chain3Edges 0 2 :=
  c10_active_iff_queued 3 chain3Edges 0 2 (by decide) (by decide) (by decide)
    (by decide) (by decide)

end PushRelabel
